import Mathlib

/-!
# BusTab15445: the copy-on-write trie and the LRU-K replacer

A shallow embedding of `src/primer/trie.cpp` and `src/buffer/lru_k_replacer.cpp`,
followed by the properties proved about them.

* A key (`std::string_view`) is a `List Char`. `Put` and `Remove` index it with an `int`
  (`int size = key.size()`), which `Trie.intSize` and `Trie.consumed` embed; `Get` walks the
  whole key.
* A `std::shared_ptr<const TrieNode>` is an `Option (TrieNode El)`; `nullptr` is `none`.
  Nodes are immutable values, so sharing is not visible in the embedding.
* `children_` (`std::map<char, std::shared_ptr<const TrieNode>>`) is an association list kept
  in key order by `Children.assign`.
* The template parameter `T` ranges over a universe of type codes `Ty` with decidable equality;
  `El T` is the type of the values of code `T`.
-/

namespace bustub

/-! ## The children mapping -/

namespace Children

variable {β : Type}

/-- The lookup `children_.find(c)` followed by `children_.at(c)`: the child stored under the
edge label `c`, or `none` when `find` returns `end()`. -/
def find (c : Char) : List (Char × β) → Option β
  | [] => none
  | (c', n) :: rest => if c' = c then some n else find c rest

/-- The assignment `children_[c] = n`: replaces the entry of `c` when there is one, and
inserts a new entry at its place in key order otherwise. -/
def assign (c : Char) (n : β) : List (Char × β) → List (Char × β)
  | [] => [(c, n)]
  | (c', n') :: rest =>
    if c < c' then (c, n) :: (c', n') :: rest
    else if c' = c then (c, n) :: rest
    else (c', n') :: assign c n rest

/-- The call `children_.erase(c)`: no entry for `c` remains. -/
def erase (c : Char) : List (Char × β) → List (Char × β)
  | [] => []
  | (c', n') :: rest => if c' = c then erase c rest else (c', n') :: erase c rest

end Children

/-! ## Nodes and tries -/

/-- Modelled from the spec: the node classes `TrieNode` and `TrieNodeWithValue<T>`, declared in
`primer/trie.h`. A node holds its `children_` mapping; a plain `TrieNode` has `value_ = none`, and a
`TrieNodeWithValue<T>` holding `v` has `value_ = some ⟨T, v⟩`, the type code standing for the
dynamic type that `dynamic_pointer_cast` inspects. -/
inductive TrieNode {Ty : Type} (El : Ty → Type) : Type where
  | mk (children_ : List (Char × TrieNode El)) (value_ : Option (Sigma El)) : TrieNode El

namespace TrieNode

variable {Ty : Type} {El : Ty → Type}

/-- The member `children_`. -/
def children_ : TrieNode El → List (Char × TrieNode El)
  | mk cs _ => cs

/-- The payload of a `TrieNodeWithValue`, with the code of its type. -/
def value_ : TrieNode El → Option (Sigma El)
  | mk _ v => v

/-- Modelled from the spec: the flag `is_value_node_` of `primer/trie.h`, true exactly for the
value-node variant. -/
def is_value_node_ (n : TrieNode El) : Bool := n.value_.isSome

/-- Modelled from the spec: `Clone()` of `primer/trie.h`, a copy of the node of the same
variant, with the same children and the same payload. -/
def Clone (n : TrieNode El) : TrieNode El := mk n.children_ n.value_

/-- The cast `std::dynamic_pointer_cast<const TrieNodeWithValue<T>>` followed by
`value_.get()`: the payload when the node is a value node of type `T`, `none` otherwise. -/
def valueAs [DecidableEq Ty] (T : Ty) (n : TrieNode El) : Option (El T) :=
  match n.value_ with
  | some ⟨ty, v⟩ => if h : ty = T then some (h ▸ v) else none
  | none => none

/-- The statement `ret->children_[c] = next`. -/
def setChild (ret : TrieNode El) (c : Char) (next : TrieNode El) : TrieNode El :=
  mk (Children.assign c next ret.children_) ret.value_

/-- The statement `ret->children_.erase(c)`. -/
def eraseChild (ret : TrieNode El) (c : Char) : TrieNode El :=
  mk (Children.erase c ret.children_) ret.value_

end TrieNode

/-- A trie version: the shared root pointer `root_`, `none` for the empty trie. -/
structure Trie {Ty : Type} (El : Ty → Type) where
  /-- The member `root_`. -/
  root_ : Option (TrieNode El)

namespace Trie

variable {Ty : Type} {El : Ty → Type}

/-- The child that the test
`ptr && ptr->children_.find(c) != ptr->children_.end()` selects, `none` when it fails. -/
def child (ptr : Option (TrieNode El)) (c : Char) : Option (TrieNode El) :=
  match ptr with
  | some p => Children.find c p.children_
  | none => none

/-- The body of `Trie::Get<T>` from the position `node_ptr` on, over the rest of the key. -/
def Get.loop [DecidableEq Ty] (T : Ty) : Option (TrieNode El) → List Char → Option (El T)
  | node_ptr, [] =>
    match node_ptr with
    | some n => if n.is_value_node_ then n.valueAs T else none
    | none => none
  | node_ptr, c :: key =>
    match node_ptr with
    | some n =>
      match Children.find c n.children_ with
      | some next => Get.loop T (some next) key
      | none => none
    | none => none

/-- The method `Trie::Get<T>(key)`. -/
def Get [DecidableEq Ty] (t : Trie El) (T : Ty) (key : List Char) : Option (El T) :=
  Get.loop T t.root_ key

/-- The value of `int size = key.size()`: the length of the key converted to a 32-bit `int`,
that is reduced modulo `2 ^ 32` into the range from `-2 ^ 31` to `2 ^ 31 - 1`. It is the length
itself for a key of fewer than `2 ^ 31` units. -/
def intSize (key : List Char) : Int :=
  if key.length % 2 ^ 32 < 2 ^ 31 then ((key.length % 2 ^ 32 : Nat) : Int)
  else ((key.length % 2 ^ 32 : Nat) : Int) - 2 ^ 32

/-- The key units `key[0]`, ..., `key[size - 1]` that the lambdas `dfs` of `Put` and `Remove`
consume before `idx == size` holds. When `size` is negative the test never holds; `idx` then
runs up to `INT_MAX`, where `idx + 1` overflows and the behaviour of the code is undefined,
and the embedding lets the recursion end there, after `2 ^ 31` units. -/
def consumed (key : List Char) : List Char :=
  if 0 ≤ intSize key then key.take (intSize key).toNat else key.take (2 ^ 31)

/-- The lambda `dfs` of `Trie::Put<T>`. Its first argument is the list of the key units from
index `idx` up to index `size - 1`, which is empty when `idx == size`. -/
def Put.dfs (T : Ty) (value : El T) : List Char → Option (TrieNode El) → TrieNode El
  | [], ptr =>
    match ptr with
    | some p => TrieNode.mk p.children_ (some ⟨T, value⟩)
    | none => TrieNode.mk [] (some ⟨T, value⟩)
  | c :: key, ptr =>
    let cur := ptr
    let next := Put.dfs T value key (child ptr c)
    let ret :=
      match cur with
      | some p => p.Clone
      | none => TrieNode.mk [] none
    ret.setChild c next

/-- The method `Trie::Put<T>(key, value)`: `dfs(0, root_)` with `int size = key.size()`. -/
def Put (t : Trie El) (T : Ty) (key : List Char) (value : El T) : Trie El :=
  ⟨some (Put.dfs T value (consumed key) t.root_)⟩

/-- The lambda `dfs` of `Trie::Remove`. Its first argument is the list of the key units from
index `idx` up to index `size - 1`, which is empty when `idx == size`. -/
def Remove.dfs : List Char → Option (TrieNode El) → Option (TrieNode El)
  | _, none => none
  | [], some ptr =>
    if ptr.is_value_node_ && !ptr.children_.isEmpty then
      some (TrieNode.mk ptr.children_ none)
    else
      none
  | c :: key, some ptr =>
    let ret := ptr.Clone
    match Children.find c ptr.children_ with
    | none => none
    | some p =>
      match Remove.dfs key (some p) with
      | none =>
        let ret := ret.eraseChild c
        if ret.children_.isEmpty && !ret.is_value_node_ then none else some ret
      | some next => some (ret.setChild c next)

/-- The method `Trie::Remove(key)`: `dfs(0, root_)` with `int size = key.size()`. -/
def Remove (t : Trie El) (key : List Char) : Trie El :=
  ⟨Remove.dfs (consumed key) t.root_⟩

/-- The empty trie, `Trie()`, whose root is absent. -/
def empty : Trie El := ⟨none⟩

end Trie

/-- The value types `Trie::Put` and `Trie::Get` are instantiated with at the end of
`trie.cpp` for plain data: `uint32_t`, `uint64_t` and `std::string`. -/
inductive CppType where
  | uint32_t
  | uint64_t
  | string
  deriving DecidableEq

/-- The values of each instantiated type. -/
@[reducible] def CppType.El : CppType → Type
  | .uint32_t => Fin (2 ^ 32)
  | .uint64_t => Fin (2 ^ 64)
  | .string => String

/-! ## The LRU-K replacer -/

/-- Modelled from the spec: the class `LRUKNode`, declared in `buffer/lru_k_replacer.h`.
A node records `k_`, the number of accesses recorded for its frame so far
(0 for a node just created, and taken as an unbounded count), and the flag `is_evictable_`
(false for a node just created). Its frame id is the key it is stored under, and its `prev` and
`next` pointers are its place in one of the two lists of `LRUKReplacer`. -/
structure LRUKNode where
  /-- The member `k_`: the number of recorded accesses. -/
  k_ : Nat
  /-- The member `is_evictable_`, read by `IsEvictable()` and written by `SetEvictable()`. -/
  is_evictable_ : Bool
  deriving DecidableEq

/-- Modelled from the spec: the constructor `LRUKNode(frame_id)` of `buffer/lru_k_replacer.h`,
a node with no recorded access that is not evictable. -/
def LRUKNode.new : LRUKNode := { k_ := 0, is_evictable_ := false }

/-- The two sentinels a node can be linked behind. -/
inductive ListHead where
  | lru_head_
  | lru_k_head_
  deriving DecidableEq

/-- The state of an `LRUKReplacer`. A frame id (`frame_id_t`) is an `Int` and stands for the
node allocated for it. Each circular doubly linked list is the list of its nodes from
`head->next` (the front, where `PutFront` links) to `head->prev` (the tail, where `Evict`
starts), the sentinel left out. -/
structure LRUKReplacer where
  /-- The member `node_store_`, from frame ids to their nodes. -/
  node_store_ : Int → Option LRUKNode
  /-- The list behind `lru_head_`: frames with fewer than `k_` recorded accesses. -/
  lru_ : List Int
  /-- The list behind `lru_k_head_`: frames with at least `k_` recorded accesses. -/
  lru_k_ : List Int
  /-- The member `replacer_size_`. -/
  replacer_size_ : Nat
  /-- The member `k_`. -/
  k_ : Nat
  /-- The member `evictable_size_`, a `size_t`. -/
  evictable_size_ : Nat

namespace LRUKReplacer

/-- The constructor `LRUKReplacer(num_frames, k)`: no node, two empty lists, and no evictable
frame counted. -/
def new (num_frames k : Nat) : LRUKReplacer :=
  { node_store_ := fun _ => none, lru_ := [], lru_k_ := [],
    replacer_size_ := num_frames, k_ := k, evictable_size_ := 0 }

/-- The call `node->IsEvictable()` on the node of `fid`. -/
def IsEvictable (s : LRUKReplacer) (fid : Int) : Bool :=
  match s.node_store_ fid with
  | some node => node.is_evictable_
  | none => false

/-- The method `RemoveNode(node)`: unlinks the node of `fid` from the list it is in. -/
def RemoveNode (s : LRUKReplacer) (fid : Int) : LRUKReplacer :=
  { s with lru_ := s.lru_.erase fid, lru_k_ := s.lru_k_.erase fid }

/-- The method `PutFront(head, node)`: links the node of `fid` right behind `head`. -/
def PutFront (s : LRUKReplacer) (head : ListHead) (fid : Int) : LRUKReplacer :=
  match head with
  | .lru_head_ => { s with lru_ := fid :: s.lru_ }
  | .lru_k_head_ => { s with lru_k_ := fid :: s.lru_k_ }

/-- One `while` loop of `Evict`: from the tail of the list towards its front, the first node
that is evictable. -/
def scan (s : LRUKReplacer) (list : List Int) : Option Int :=
  list.reverse.find? (fun fid => s.IsEvictable fid)

/-- The body of the `if (tail->IsEvictable())` branch of `Evict`. -/
def evictNode (s : LRUKReplacer) (fid : Int) : LRUKReplacer :=
  let s := { s with node_store_ := Function.update s.node_store_ fid none }
  let s := s.RemoveNode fid
  { s with evictable_size_ := (s.evictable_size_ + 2 ^ 64 - 1) % 2 ^ 64 }

/-- The method `Evict(frame_id)`: the frame written to `*frame_id` (`none` when the method
returns false) and the state afterwards. -/
def Evict (s : LRUKReplacer) : Option Int × LRUKReplacer :=
  match s.scan s.lru_ with
  | some fid => (some fid, s.evictNode fid)
  | none =>
    match s.scan s.lru_k_ with
    | some fid => (some fid, s.evictNode fid)
    | none => (none, s)

/-- The method `RecordAccess(frame_id, access_type)`; `access_type` is unused. -/
def RecordAccess (s : LRUKReplacer) (frame_id : Int) : LRUKReplacer :=
  let (node, s1) :=
    match s.node_store_ frame_id with
    | some node => (node, s.RemoveNode frame_id)
    | none => (LRUKNode.new, s)
  let node := { node with k_ := node.k_ + 1 }
  let s2 := { s1 with node_store_ := Function.update s1.node_store_ frame_id (some node) }
  if node.k_ ≥ s.k_ then s2.PutFront .lru_k_head_ frame_id
  else s2.PutFront .lru_head_ frame_id

/-- The method `SetEvictable(frame_id, set_evictable)`; `error` is the `ExecutionException`. -/
def SetEvictable (s : LRUKReplacer) (frame_id : Int) (set_evictable : Bool) :
    Except String LRUKReplacer :=
  match s.node_store_ frame_id with
  | none => .error "LRUKReplacer::Frame id is invalid."
  | some node =>
    let is_evictable := node.is_evictable_
    if is_evictable ≠ set_evictable then
      let size :=
        if is_evictable then (s.evictable_size_ + 2 ^ 64 - 1) % 2 ^ 64
        else (s.evictable_size_ + 1) % 2 ^ 64
      .ok { s with
        evictable_size_ := size
        node_store_ :=
          Function.update s.node_store_ frame_id
            (some { node with is_evictable_ := set_evictable }) }
    else .ok s

/-- The method `Remove(frame_id)`; `error` is the `ExecutionException`. -/
def Remove (s : LRUKReplacer) (frame_id : Int) : Except String LRUKReplacer :=
  match s.node_store_ frame_id with
  | none => .ok s
  | some node =>
    if node.is_evictable_ then
      .ok ({ s with
        node_store_ := Function.update s.node_store_ frame_id none }.RemoveNode frame_id)
    else .error "LRUKReplacer::Frame is not evictable."

/-- The method `Size()`. -/
def Size (s : LRUKReplacer) : Nat := s.evictable_size_

end LRUKReplacer

/-- A call of one of the public methods of the replacer. -/
inductive Call where
  | RecordAccess (frame_id : Int)
  | SetEvictable (frame_id : Int) (set_evictable : Bool)
  | Evict
  | Remove (frame_id : Int)

/-- The state after a call; a call that throws leaves the state as it was. -/
def LRUKReplacer.step (s : LRUKReplacer) : Call → LRUKReplacer
  | .RecordAccess frame_id => s.RecordAccess frame_id
  | .SetEvictable frame_id b =>
    match s.SetEvictable frame_id b with
    | .ok s' => s'
    | .error _ => s
  | .Evict => s.Evict.2
  | .Remove frame_id =>
    match s.Remove frame_id with
    | .ok s' => s'
    | .error _ => s

/-- The state after a sequence of calls. -/
def LRUKReplacer.run (s : LRUKReplacer) (calls : List Call) : LRUKReplacer :=
  calls.foldl LRUKReplacer.step s

/-- The access history the spec speaks of, which the code does not store: next to the
replacer, the time `now` (the number of calls made so far) and for every frame the times of
its recorded accesses, the most recent first. `RecordAccess` notes one access to a frame
"now"; a frame that is evicted or removed has its history forgotten. -/
structure Timeline where
  /-- The replacer of the code. -/
  replacer : LRUKReplacer
  /-- The time of the next call. -/
  now : Nat
  /-- The times of the recorded accesses of each frame, the most recent first. -/
  accesses : Int → List Nat

namespace Timeline

/-- A fresh replacer, with no recorded access. -/
def new (num_frames k : Nat) : Timeline :=
  { replacer := LRUKReplacer.new num_frames k, now := 0, accesses := fun _ => [] }

/-- One call: the replacer does what the code does, and the history follows the spec. -/
def step (tl : Timeline) (call : Call) : Timeline :=
  { replacer := tl.replacer.step call
    now := tl.now + 1
    accesses :=
      match call with
      | .RecordAccess frame_id =>
        Function.update tl.accesses frame_id (tl.now :: tl.accesses frame_id)
      | .SetEvictable _ _ => tl.accesses
      | .Evict =>
        match tl.replacer.Evict.1 with
        | some fid => Function.update tl.accesses fid []
        | none => tl.accesses
      | .Remove frame_id =>
        match tl.replacer.Remove frame_id with
        | .ok _ => Function.update tl.accesses frame_id []
        | .error _ => tl.accesses }

/-- A sequence of calls. -/
def run (tl : Timeline) (calls : List Call) : Timeline :=
  calls.foldl Timeline.step tl

/-- The number of recorded accesses of a frame. -/
def recorded (tl : Timeline) (fid : Int) : Nat := (tl.accesses fid).length

/-- The time of the most recent recorded access of a frame. -/
def latest (tl : Timeline) (fid : Int) : Option Nat := (tl.accesses fid).head?

/-- The time of the earliest (first) recorded access of a frame. -/
def earliest (tl : Timeline) (fid : Int) : Option Nat := (tl.accesses fid).getLast?

/-- The time of the `k`-th most recent recorded access of a frame, for `k ≥ 1`; the backward
k-distance of the frame is the time elapsed since then. -/
def kthRecent (tl : Timeline) (k : Nat) (fid : Int) : Option Nat := (tl.accesses fid)[k - 1]?

end Timeline

/-- The relation between the lists of the code and the access history: what `k_` counts, which
list a tracked frame is in, and the order of each list (a frame nearer the front has the more
recent latest access). -/
structure Tracking (store : Int → Option LRUKNode) (lru lru_k : List Int) (k : Nat)
    (accesses : Int → List Nat) (now : Nat) : Prop where
  /-- The member `k_` of a node counts the recorded accesses of its frame, at least one. -/
  count : ∀ f n, store f = some n → n.k_ = (accesses f).length ∧ 0 < n.k_
  /-- A frame without a node has no recorded access. -/
  forgotten : ∀ f, store f = none → accesses f = []
  /-- Every recorded access is in the past. -/
  past : ∀ f t, t ∈ accesses f → t < now
  /-- The list at `lru_head_` holds the frames with fewer than `k` accesses. -/
  mem_lru : ∀ f, f ∈ lru ↔ ∃ n, store f = some n ∧ n.k_ < k
  /-- The list at `lru_k_head_` holds the frames with at least `k` accesses. -/
  mem_lru_k : ∀ f, f ∈ lru_k ↔ ∃ n, store f = some n ∧ k ≤ n.k_
  /-- The list at `lru_head_` is in the order of the latest accesses. -/
  sorted_lru : lru.Pairwise (fun a b => (accesses b).headD 0 < (accesses a).headD 0)
  /-- The list at `lru_k_head_` is in the order of the latest accesses. -/
  sorted_lru_k : lru_k.Pairwise (fun a b => (accesses b).headD 0 < (accesses a).headD 0)

/-- The relation `Tracking` on a timeline. -/
def Timeline.Inv (tl : Timeline) : Prop :=
  Tracking tl.replacer.node_store_ tl.replacer.lru_ tl.replacer.lru_k_ tl.replacer.k_
    tl.accesses tl.now

/-- The number of tracked frames whose evictable flag is true, which `Size()` is to return;
the tracked frames are the nodes of the two lists. -/
def LRUKReplacer.evictableCount (s : LRUKReplacer) : Nat :=
  ((s.lru_ ++ s.lru_k_).filter (fun fid => s.IsEvictable fid)).length

namespace Trie

variable {Ty : Type} {El : Ty → Type}

/-- The node reached from `ptr` along the edge labels of `key`, when every edge exists: the
nodes reachable from a root are the results of `walk` from it. -/
def walk : Option (TrieNode El) → List Char → Option (TrieNode El)
  | ptr, [] => ptr
  | ptr, c :: key => walk (child ptr c) key

/-- Every node reachable from `ptr` satisfies `P`. -/
def all (P : TrieNode El → Prop) (ptr : Option (TrieNode El)) : Prop :=
  ∀ key n, walk ptr key = some n → P n

/-- A dead node: `has_value = false` together with an empty children mapping. -/
def dead (n : TrieNode El) : Prop := n.is_value_node_ = false ∧ n.children_.isEmpty = true

/-- A well-formed trie: no node reachable from its root is dead. -/
def WellFormed (t : Trie El) : Prop := all (fun n => ¬ dead n) t.root_

/-- The children mapping of every reachable node is in strict key order, as a `std::map`
always is. -/
def Ordered (t : Trie El) : Prop :=
  all (fun n => n.children_.Pairwise (fun a b => a.1 < b.1)) t.root_

/-- No node lies more than `2 ^ 31` edges below the root. `Put` consumes at most `2 ^ 31` key
units (see `consumed`), so every trie that the code builds is bounded in this way. -/
def Bounded (t : Trie El) : Prop :=
  ∀ key n, walk t.root_ key = some n → key.length ≤ 2 ^ 31

end Trie

/-- One update of a trie: `Put<T>(key, value)` or `Remove(key)`. -/
inductive TrieUpdate {Ty : Type} (El : Ty → Type) : Type where
  | Put (T : Ty) (key : List Char) (value : El T) : TrieUpdate El
  | Remove (key : List Char) : TrieUpdate El

/-- The trie after one update. -/
def Trie.apply {Ty : Type} {El : Ty → Type} (t : Trie El) : TrieUpdate El → Trie El
  | .Put T key value => t.Put T key value
  | .Remove key => t.Remove key

/-- The trie built from the empty trie by a sequence of updates. -/
def Trie.build {Ty : Type} {El : Ty → Type} (updates : List (TrieUpdate El)) : Trie El :=
  updates.foldl Trie.apply Trie.empty

/-! # Theorems -/

/-! ## Lemmas on the children mapping -/

namespace Children
variable {β : Type}

theorem find_assign_self (c : Char) (n : β) (l : List (Char × β)) :
    find c (assign c n l) = some n := by
  induction l with
  | nil => simp [assign, find]
  | cons hd tl ih =>
    obtain ⟨c', n'⟩ := hd
    unfold assign
    split_ifs with h1 h2
    · simp [find]
    · simp [find]
    · simp [find, h2, ih]

theorem find_assign_ne {c c' : Char} (h : c' ≠ c) (n : β) (l : List (Char × β)) :
    find c' (assign c n l) = find c' l := by
  induction l with
  | nil => simp [assign, find, h.symm]
  | cons hd tl ih =>
    obtain ⟨d, n'⟩ := hd
    unfold assign
    split_ifs with h1 h2
    · simp [find, h.symm]
    · subst h2
      simp [find, h.symm]
    · simp [find, ih]

theorem find_erase_self (c : Char) (l : List (Char × β)) :
    find c (erase c l) = none := by
  induction l with
  | nil => simp [erase, find]
  | cons hd tl ih =>
    obtain ⟨d, n'⟩ := hd
    unfold erase
    split_ifs with h1
    · exact ih
    · simp [find, h1, ih]

theorem find_erase_ne {c c' : Char} (h : c' ≠ c) (l : List (Char × β)) :
    find c' (erase c l) = find c' l := by
  induction l with
  | nil => simp [erase, find]
  | cons hd tl ih =>
    obtain ⟨d, n'⟩ := hd
    unfold erase
    split_ifs with h1
    · subst h1
      simp [find, h.symm, ih]
    · simp [find, ih]

theorem find_of_isEmpty {l : List (Char × β)} (h : l.isEmpty = true) (c : Char) :
    find c l = none := by
  cases l with
  | nil => rfl
  | cons hd tl => simp at h

end Children

/-! ## Lemmas on `Get`, `Put` and `Remove` -/

namespace Trie

variable {Ty : Type} {El : Ty → Type}

theorem Get.loop_none [DecidableEq Ty] (T : Ty) (key : List Char) :
    Get.loop T (none : Option (TrieNode El)) key = none := by
  cases key <;> rfl

theorem Get.loop_cons [DecidableEq Ty] (T : Ty) (ptr : Option (TrieNode El)) (c : Char)
    (key : List Char) :
    Get.loop T ptr (c :: key) = Get.loop T (child ptr c) key := by
  cases ptr with
  | none => simp [Get.loop, child, Get.loop_none]
  | some p =>
    simp only [Get.loop, child]
    cases Children.find c p.children_ with
    | none => simp [Get.loop_none]
    | some n => rfl

theorem child_setChild_self (ret next : TrieNode El) (c : Char) :
    child (some (ret.setChild c next)) c = some next := by
  simp [child, TrieNode.setChild, TrieNode.children_, Children.find_assign_self]

theorem child_setChild_ne (ret next : TrieNode El) {c c' : Char} (h : c' ≠ c) :
    child (some (ret.setChild c next)) c' = child (some ret) c' := by
  simp [child, TrieNode.setChild, TrieNode.children_, Children.find_assign_ne h]

theorem Get.loop_nil_some [DecidableEq Ty] (T : Ty) (n : TrieNode El) :
    Get.loop T (some n) [] = n.valueAs T := by
  simp only [Get.loop, TrieNode.is_value_node_, TrieNode.valueAs]
  cases n.value_ <;> simp

theorem Put_dfs_cons (T : Ty) (v : El T) (c : Char) (key : List Char)
    (ptr : Option (TrieNode El)) :
    Put.dfs T v (c :: key) ptr =
      TrieNode.setChild (match ptr with | some p => p.Clone | none => TrieNode.mk [] none) c
        (Put.dfs T v key (child ptr c)) := rfl

theorem child_base (ptr : Option (TrieNode El)) (c : Char) :
    child (some (match ptr with | some p => p.Clone | none => TrieNode.mk [] none)) c
      = child ptr c := by
  cases ptr <;> rfl

theorem Get.loop_Put_mismatch [DecidableEq Ty] {T U : Ty} (h : U ≠ T) (v : El T) (key : List Char)
    (ptr : Option (TrieNode El)) :
    Get.loop U (some (Put.dfs T v key ptr)) key = none := by
  induction key generalizing ptr with
  | nil =>
    rw [Get.loop_nil_some]
    cases ptr <;> simp [Put.dfs, TrieNode.valueAs, TrieNode.value_, h.symm]
  | cons c key ih =>
    rw [Get.loop_cons, Put_dfs_cons, child_setChild_self]
    exact ih _

theorem Get.loop_one_type [DecidableEq Ty] {T U : Ty} (h : U ≠ T) (key : List Char)
    (ptr : Option (TrieNode El)) (w : El T) (hw : Get.loop T ptr key = some w) :
    Get.loop U ptr key = none := by
  induction key generalizing ptr with
  | nil =>
    cases ptr with
    | none => rfl
    | some n =>
      rw [Get.loop_nil_some] at hw ⊢
      unfold TrieNode.valueAs at hw ⊢
      cases hv : n.value_ with
      | none => rfl
      | some x =>
        obtain ⟨ty, y⟩ := x
        rw [hv] at hw
        simp only [] at hw ⊢
        by_cases e : ty = T
        · subst e
          simp [Ne.symm h]
        · simp [e] at hw
  | cons c key ih =>
    rw [Get.loop_cons] at hw ⊢
    exact ih _ hw

theorem child_Put_nil (T : Ty) (v : El T) (ptr : Option (TrieNode El)) (c : Char) :
    child (some (Put.dfs T v [] ptr)) c = child ptr c := by
  cases ptr <;> rfl

theorem Get.loop_Remove_self [DecidableEq Ty] (T : Ty) (key : List Char)
    (ptr : Option (TrieNode El)) :
    Get.loop T (Remove.dfs key ptr) key = none := by
  induction key generalizing ptr with
  | nil =>
    cases ptr with
    | none => rfl
    | some p =>
      simp only [Remove.dfs]
      split_ifs
      · rw [Get.loop_nil_some]; rfl
      · rfl
  | cons c key ih =>
    cases ptr with
    | none => rfl
    | some p =>
      rw [Get.loop_cons]
      simp only [Remove.dfs]
      cases hf : Children.find c p.children_ with
      | none => simp [child, Get.loop_none]
      | some q =>
        simp only []
        cases hr : Remove.dfs key (some q) with
        | none =>
          simp only []
          split_ifs
          · simp [child, Get.loop_none]
          · simp [child, TrieNode.eraseChild, TrieNode.children_, Children.find_erase_self,
              Get.loop_none]
        | some next =>
          simp only []
          rw [child_setChild_self, ← hr]
          exact ih _

theorem child_of_isEmpty {n : TrieNode El} (h : n.children_.isEmpty = true) (c : Char) :
    child (some n) c = none :=
  Children.find_of_isEmpty h c

theorem child_eraseChild_self (n : TrieNode El) (c : Char) :
    child (some (n.eraseChild c)) c = none := by
  simp [child, TrieNode.eraseChild, TrieNode.children_, Children.find_erase_self]

theorem child_eraseChild_ne (n : TrieNode El) {c c' : Char} (h : c' ≠ c) :
    child (some (n.eraseChild c)) c' = child (some n) c' := by
  simp [child, TrieNode.eraseChild, TrieNode.children_, Children.find_erase_ne h]

theorem Remove_dfs_cons (c : Char) (key : List Char) (p : TrieNode El) :
    Remove.dfs (c :: key) (some p) =
      match child (some p) c with
      | none => none
      | some q =>
        match Remove.dfs key (some q) with
        | none =>
          if (p.Clone.eraseChild c).children_.isEmpty && !(p.Clone.eraseChild c).is_value_node_
          then none else some (p.Clone.eraseChild c)
        | some next => some (p.Clone.setChild c next) := rfl

/-- Below a position whose edge `c` exists, `Remove` leaves the value at the position alone. -/
theorem Get.loop_Remove_cons_nil [DecidableEq Ty] (U : Ty) (c : Char) (key : List Char)
    (p q : TrieNode El)
    (hq : child (some p) c = some q) :
    Get.loop U (Remove.dfs (c :: key) (some p)) [] = Get.loop U (some p) [] := by
  rw [Remove_dfs_cons, hq]
  simp only []
  cases Remove.dfs key (some q) with
  | none =>
    simp only []
    split_ifs with h
    · simp only [Bool.and_eq_true, Bool.not_eq_true', TrieNode.is_value_node_] at h
      have hv : p.value_ = none := by
        have := h.2
        simpa [TrieNode.eraseChild, TrieNode.Clone, TrieNode.value_] using this
      simp [Get.loop, TrieNode.is_value_node_, hv]
    · rw [Get.loop_nil_some, Get.loop_nil_some]; rfl
  | some next =>
    simp only []
    rw [Get.loop_nil_some, Get.loop_nil_some]; rfl

/-- Below a position whose edge `c` exists, `Remove` leaves the other edges alone. -/
theorem Get.loop_Remove_cons_ne [DecidableEq Ty] (U : Ty) {c c' : Char} (h : c' ≠ c)
    (key r : List Char)
    (p q : TrieNode El) (hq : child (some p) c = some q) :
    Get.loop U (Remove.dfs (c :: key) (some p)) (c' :: r) = Get.loop U (some p) (c' :: r) := by
  rw [Remove_dfs_cons, hq, Get.loop_cons, Get.loop_cons U (some p)]
  simp only []
  cases Remove.dfs key (some q) with
  | none =>
    simp only []
    split_ifs with he
    · simp only [Bool.and_eq_true] at he
      have h1 := child_of_isEmpty he.1 c'
      rw [child_eraseChild_ne _ h] at h1
      have h2 : child (some p) c' = none := h1
      rw [h2]
      rfl
    · rw [child_eraseChild_ne _ h]; rfl
  | some next =>
    simp only []
    rw [child_setChild_ne _ _ h]; rfl

/-- Below a position whose edge `c` exists, `Remove` continues in the child. -/
theorem Get.loop_Remove_cons_same [DecidableEq Ty] (U : Ty) (c : Char) (key r : List Char)
    (p q : TrieNode El) (hq : child (some p) c = some q) :
    Get.loop U (Remove.dfs (c :: key) (some p)) (c :: r)
      = Get.loop U (Remove.dfs key (some q)) r := by
  rw [Remove_dfs_cons, hq, Get.loop_cons]
  simp only []
  cases Remove.dfs key (some q) with
  | none =>
    simp only []
    split_ifs with he
    · rfl
    · rw [child_eraseChild_self]
  | some next =>
    simp only []
    rw [child_setChild_self]

end Trie

/-! ## Lemmas on the replacer -/

theorem sorted_nodup {g : Int → Nat} {l : List Int}
    (hl : l.Pairwise (fun a b => g b < g a)) : l.Nodup := by
  refine List.Pairwise.imp ?_ hl
  intro a b hab e
  rw [e] at hab
  exact lt_irrefl _ hab

theorem sorted_erase_update (acc : Int → List Nat) (g : Int) (v : List Nat) {l : List Int}
    (hl : l.Pairwise (fun a b => (acc b).headD 0 < (acc a).headD 0)) :
    (l.erase g).Pairwise
      (fun a b => (Function.update acc g v b).headD 0 < (Function.update acc g v a).headD 0) := by
  have hnd : l.Nodup := sorted_nodup hl
  refine List.Pairwise.imp_of_mem ?_ (hl.sublist (List.erase_sublist g l))
  intro a b ha hb hab
  have ha' : a ≠ g := ((hnd.mem_erase_iff).1 ha).1
  have hb' : b ≠ g := ((hnd.mem_erase_iff).1 hb).1
  rw [Function.update_noteq ha', Function.update_noteq hb']
  exact hab

theorem sorted_front (acc : Int → List Nat) (f : Int) (now : Nat) {l : List Int}
    (hl : l.Pairwise (fun a b => (acc b).headD 0 < (acc a).headD 0))
    (hnow : ∀ b ∈ l, (acc b).headD 0 < now) :
    (f :: l.erase f).Pairwise
      (fun a b => (Function.update acc f (now :: acc f) b).headD 0
        < (Function.update acc f (now :: acc f) a).headD 0) := by
  have hnd : l.Nodup := sorted_nodup hl
  refine List.pairwise_cons.2 ⟨?_, sorted_erase_update acc f _ hl⟩
  intro b hb
  have hb' := (hnd.mem_erase_iff).1 hb
  rw [Function.update_noteq hb'.1, Function.update_same]
  exact hnow b hb'.2

namespace Tracking

variable {store : Int → Option LRUKNode} {lru lru_k : List Int} {k : Nat}
  {accesses : Int → List Nat} {now : Nat}

theorem latest_lt (h : Tracking store lru lru_k k accesses now) {f : Int} {n : LRUKNode}
    (hf : store f = some n) : (accesses f).headD 0 < now := by
  have hc := h.count f n hf
  cases ha : accesses f with
  | nil => rw [ha] at hc; simp at hc; omega
  | cons t ts => exact h.past f t (by rw [ha]; simp)

theorem later (h : Tracking store lru lru_k k accesses now) {now' : Nat} (hn : now ≤ now') :
    Tracking store lru lru_k k accesses now' :=
  { h with past := fun f t ht => lt_of_lt_of_le (h.past f t ht) hn }

/-- The relation survives forgetting a frame: its node, its place in the lists, its history. -/
theorem forget (h : Tracking store lru lru_k k accesses now) (g : Int) :
    Tracking (Function.update store g none) (lru.erase g) (lru_k.erase g) k
      (Function.update accesses g []) now where
  count := by
    intro f n hf
    by_cases e : f = g
    · subst e; simp at hf
    · rw [Function.update_noteq e] at hf ⊢
      exact h.count f n hf
  forgotten := by
    intro f hf
    by_cases e : f = g
    · subst e; simp
    · rw [Function.update_noteq e] at hf ⊢
      exact h.forgotten f hf
  past := by
    intro f t ht
    by_cases e : f = g
    · subst e; simp at ht
    · rw [Function.update_noteq e] at ht
      exact h.past f t ht
  mem_lru := by
    intro f
    rw [(sorted_nodup h.sorted_lru).mem_erase_iff]
    by_cases e : f = g
    · subst e; simp
    · rw [Function.update_noteq e, h.mem_lru f]; simp [e]
  mem_lru_k := by
    intro f
    rw [(sorted_nodup h.sorted_lru_k).mem_erase_iff]
    by_cases e : f = g
    · subst e; simp
    · rw [Function.update_noteq e, h.mem_lru_k f]; simp [e]
  sorted_lru := sorted_erase_update accesses g [] h.sorted_lru
  sorted_lru_k := sorted_erase_update accesses g [] h.sorted_lru_k

/-- The relation survives a change of the evictable flag of a node. -/
theorem flag (h : Tracking store lru lru_k k accesses now) {f : Int} {n : LRUKNode}
    (hf : store f = some n) (b : Bool) :
    Tracking (Function.update store f (some { n with is_evictable_ := b })) lru lru_k k
      accesses now where
  count := by
    intro f' n' hf'
    by_cases e : f' = f
    · subst e
      rw [Function.update_same] at hf'
      cases hf'
      exact h.count f' n hf
    · rw [Function.update_noteq e] at hf'
      exact h.count f' n' hf'
  forgotten := by
    intro f' hf'
    by_cases e : f' = f
    · subst e; simp at hf'
    · rw [Function.update_noteq e] at hf'
      exact h.forgotten f' hf'
  past := h.past
  mem_lru := by
    intro f'
    rw [h.mem_lru f']
    by_cases e : f' = f
    · subst e
      rw [Function.update_same, hf]
      simp
    · rw [Function.update_noteq e]
  mem_lru_k := by
    intro f'
    rw [h.mem_lru_k f']
    by_cases e : f' = f
    · subst e
      rw [Function.update_same, hf]
      simp
    · rw [Function.update_noteq e]
  sorted_lru := h.sorted_lru
  sorted_lru_k := h.sorted_lru_k

end Tracking

namespace Tracking

variable {store : Int → Option LRUKNode} {lru lru_k : List Int} {k : Nat}
  {accesses : Int → List Nat} {now : Nat}

/-- The relation survives one more access of a frame whose node counted `c` accesses. -/
theorem record (h : Tracking store lru lru_k k accesses now) (f : Int) (c : Nat) (e : Bool)
    (hc : c = (accesses f).length) :
    Tracking (Function.update store f (some { k_ := c + 1, is_evictable_ := e }))
      (if k ≤ c + 1 then lru.erase f else f :: lru.erase f)
      (if k ≤ c + 1 then f :: lru_k.erase f else lru_k.erase f) k
      (Function.update accesses f (now :: accesses f)) (now + 1) where
  count := by
    intro f' n hf'
    by_cases e' : f' = f
    · subst e'
      rw [Function.update_same] at hf' ⊢
      cases hf'
      simp [hc]
    · rw [Function.update_noteq e'] at hf' ⊢
      exact h.count f' n hf'
  forgotten := by
    intro f' hf'
    by_cases e' : f' = f
    · subst e'; simp at hf'
    · rw [Function.update_noteq e'] at hf' ⊢
      exact h.forgotten f' hf'
  past := by
    intro f' t ht
    by_cases e' : f' = f
    · subst e'
      rw [Function.update_same] at ht
      rcases List.mem_cons.1 ht with rfl | ht
      · exact Nat.lt_succ_self _
      · exact Nat.lt_succ_of_lt (h.past f' t ht)
    · rw [Function.update_noteq e'] at ht
      exact Nat.lt_succ_of_lt (h.past f' t ht)
  mem_lru := by
    intro f'
    have hnd := sorted_nodup h.sorted_lru
    by_cases e' : f' = f
    · subst e'
      rw [Function.update_same]
      split_ifs with hk
      · simp only [hnd.not_mem_erase, false_iff]
        rintro ⟨n, hn, hlt⟩
        cases hn
        simp at hlt
        omega
      · simp only [List.mem_cons, true_or, true_iff]
        exact ⟨_, rfl, by simp; omega⟩
    · rw [Function.update_noteq e', ← h.mem_lru f']
      split_ifs with hk
      · exact List.mem_erase_of_ne e'
      · simp [e', List.mem_erase_of_ne e']
  mem_lru_k := by
    intro f'
    have hnd := sorted_nodup h.sorted_lru_k
    by_cases e' : f' = f
    · subst e'
      rw [Function.update_same]
      split_ifs with hk
      · simp only [List.mem_cons, true_or, true_iff]
        exact ⟨_, rfl, by simpa using hk⟩
      · simp only [hnd.not_mem_erase, false_iff]
        rintro ⟨n, hn, hle⟩
        cases hn
        exact hk hle
    · rw [Function.update_noteq e', ← h.mem_lru_k f']
      split_ifs with hk
      · simp [e', List.mem_erase_of_ne e']
      · exact List.mem_erase_of_ne e'
  sorted_lru := by
    split_ifs with hk
    · exact sorted_erase_update accesses f _ h.sorted_lru
    · refine sorted_front accesses f now h.sorted_lru ?_
      intro b hb
      obtain ⟨n, hn, _⟩ := (h.mem_lru b).1 hb
      exact h.latest_lt hn
  sorted_lru_k := by
    split_ifs with hk
    · refine sorted_front accesses f now h.sorted_lru_k ?_
      intro b hb
      obtain ⟨n, hn, _⟩ := (h.mem_lru_k b).1 hb
      exact h.latest_lt hn
    · exact sorted_erase_update accesses f _ h.sorted_lru_k

end Tracking

namespace Timeline

theorem Inv.new (num_frames k : Nat) : (Timeline.new num_frames k).Inv where
  count := by intro f n hf; simp [Timeline.new, LRUKReplacer.new] at hf
  forgotten := by intro f _; rfl
  past := by intro f t ht; simp [Timeline.new] at ht
  mem_lru := by intro f; simp [Timeline.new, LRUKReplacer.new]
  mem_lru_k := by intro f; simp [Timeline.new, LRUKReplacer.new]
  sorted_lru := List.Pairwise.nil
  sorted_lru_k := List.Pairwise.nil

theorem Inv.recordAccess {tl : Timeline} (h : tl.Inv) (f : Int) :
    (tl.step (.RecordAccess f)).Inv := by
  unfold Timeline.Inv at h ⊢
  simp only [Timeline.step, LRUKReplacer.step, LRUKReplacer.RecordAccess, LRUKNode.new]
  cases hs : tl.replacer.node_store_ f with
  | none =>
    have hc : 0 = (tl.accesses f).length := by rw [h.forgotten f hs]; rfl
    have h1 : tl.replacer.lru_.erase f = tl.replacer.lru_ := by
      apply List.erase_of_not_mem
      intro hm
      obtain ⟨n, hn, _⟩ := (h.mem_lru f).1 hm
      rw [hs] at hn; cases hn
    have h2 : tl.replacer.lru_k_.erase f = tl.replacer.lru_k_ := by
      apply List.erase_of_not_mem
      intro hm
      obtain ⟨n, hn, _⟩ := (h.mem_lru_k f).1 hm
      rw [hs] at hn; cases hn
    have := h.record f 0 false hc
    rw [h1, h2] at this
    simp only [ge_iff_le]
    split_ifs with hk
    · simp only [if_pos hk] at this
      exact this
    · simp only [if_neg hk] at this
      exact this
  | some n =>
    have hc : n.k_ = (tl.accesses f).length := (h.count f n hs).1
    have := h.record f n.k_ n.is_evictable_ hc
    simp only [ge_iff_le]
    split_ifs with hk
    · simp only [if_pos hk] at this
      exact this
    · simp only [if_neg hk] at this
      exact this

theorem Inv.setEvictable {tl : Timeline} (h : tl.Inv) (f : Int) (b : Bool) :
    (tl.step (.SetEvictable f b)).Inv := by
  unfold Timeline.Inv at h ⊢
  simp only [Timeline.step, LRUKReplacer.step, LRUKReplacer.SetEvictable]
  cases hs : tl.replacer.node_store_ f with
  | none => exact h.later (Nat.le_succ _)
  | some n =>
    by_cases hb : n.is_evictable_ = b
    · simp only [hb, ne_eq, not_true_eq_false, if_false]
      exact h.later (Nat.le_succ _)
    · simp only [ne_eq, hb, not_false_eq_true, if_true]
      exact (h.flag hs b).later (Nat.le_succ _)

theorem Inv.evictNode {tl : Timeline} (h : tl.Inv) (g : Int) :
    Tracking (tl.replacer.evictNode g).node_store_ (tl.replacer.evictNode g).lru_
      (tl.replacer.evictNode g).lru_k_ (tl.replacer.evictNode g).k_
      (Function.update tl.accesses g []) (tl.now + 1) :=
  (Tracking.forget h g).later (Nat.le_succ _)

theorem Inv.evict {tl : Timeline} (h : tl.Inv) : (tl.step .Evict).Inv := by
  unfold Timeline.Inv
  simp only [Timeline.step, LRUKReplacer.step, LRUKReplacer.Evict]
  cases h1 : tl.replacer.scan tl.replacer.lru_ with
  | some g => exact Inv.evictNode h g
  | none =>
    simp only []
    cases h2 : tl.replacer.scan tl.replacer.lru_k_ with
    | some g => exact Inv.evictNode h g
    | none => exact Tracking.later h (Nat.le_succ _)

theorem Inv.remove {tl : Timeline} (h : tl.Inv) (f : Int) : (tl.step (.Remove f)).Inv := by
  unfold Timeline.Inv
  simp only [Timeline.step, LRUKReplacer.step, LRUKReplacer.Remove]
  cases hs : tl.replacer.node_store_ f with
  | none =>
    simp only []
    have : Function.update tl.accesses f [] = tl.accesses := by
      rw [← h.forgotten f hs]; exact Function.update_eq_self f tl.accesses
    rw [this]
    exact Tracking.later h (Nat.le_succ _)
  | some n =>
    simp only []
    split_ifs with hb
    · exact (Tracking.forget h f).later (Nat.le_succ _)
    · exact Tracking.later h (Nat.le_succ _)

theorem Inv.step {tl : Timeline} (h : tl.Inv) (call : Call) : (tl.step call).Inv := by
  cases call with
  | RecordAccess f => exact h.recordAccess f
  | SetEvictable f b => exact h.setEvictable f b
  | Evict => exact h.evict
  | Remove f => exact h.remove f

theorem Inv.run {tl : Timeline} (h : tl.Inv) (calls : List Call) : (tl.run calls).Inv := by
  induction calls generalizing tl with
  | nil => exact h
  | cons call calls ih => exact ih (h.step call)

end Timeline

namespace LRUKReplacer

theorem scan_eq_none {s : LRUKReplacer} {l : List Int} (h : s.scan l = none) :
    ∀ f ∈ l, s.IsEvictable f ≠ true := by
  intro f hf
  have := List.find?_eq_none.1 h f (List.mem_reverse.2 hf)
  simpa using this

theorem scan_eq_some {R : Int → Int → Prop} {s : LRUKReplacer} {l : List Int} {g : Int}
    (hl : l.Pairwise R) (h : s.scan l = some g) :
    g ∈ l ∧ s.IsEvictable g = true ∧
      ∀ f ∈ l, s.IsEvictable f = true → f ≠ g → R f g := by
  obtain ⟨hg, as, bs, hrev, has⟩ := List.find?_eq_some.1 h
  have hl' : l = bs.reverse ++ g :: as.reverse := by
    have := congrArg List.reverse hrev
    simpa using this
  refine ⟨by rw [hl']; simp, hg, ?_⟩
  intro f hf hfe hne
  rw [hl'] at hf hl
  rcases List.mem_append.1 hf with hf | hf
  · exact (List.pairwise_append.1 hl).2.2 f hf g (List.mem_cons_self _ _)
  · rcases List.mem_cons.1 hf with hf | hf
    · exact absurd hf hne
    · have := has f (List.mem_reverse.1 hf)
      simp [hfe] at this

theorem scan_isSome {s : LRUKReplacer} {l : List Int} {f : Int} (hf : f ∈ l)
    (he : s.IsEvictable f = true) : ∃ g, s.scan l = some g := by
  cases h : s.scan l with
  | some g => exact ⟨g, rfl⟩
  | none => exact absurd he (scan_eq_none h f hf)

theorem step_k_ (s : LRUKReplacer) (call : Call) : (s.step call).k_ = s.k_ := by
  cases call with
  | RecordAccess f =>
    simp only [step, RecordAccess, LRUKNode.new]
    cases s.node_store_ f <;> simp only [] <;> split <;> rfl
  | SetEvictable f b =>
    simp only [step, SetEvictable]
    cases s.node_store_ f with
    | none => rfl
    | some n => simp only []; split_ifs <;> rfl
  | Evict =>
    simp only [step, Evict]
    cases s.scan s.lru_ with
    | some g => rfl
    | none =>
      simp only []
      cases s.scan s.lru_k_ <;> rfl
  | Remove f =>
    simp only [step, Remove]
    cases s.node_store_ f with
    | none => rfl
    | some n => simp only []; split_ifs <;> rfl

end LRUKReplacer

namespace Timeline

theorem run_k_ (tl : Timeline) (calls : List Call) :
    (tl.run calls).replacer.k_ = tl.replacer.k_ := by
  induction calls generalizing tl with
  | nil => rfl
  | cons call calls ih =>
    have := ih (tl.step call)
    rw [show (tl.step call).replacer.k_ = tl.replacer.k_ from LRUKReplacer.step_k_ _ _] at this
    exact this

/-- Every state reached from a fresh replacer satisfies the tracking relation, with the `k` the
replacer was made with. -/
theorem reachable (num_frames k : Nat) (calls : List Call) :
    Tracking ((Timeline.new num_frames k).run calls).replacer.node_store_
      ((Timeline.new num_frames k).run calls).replacer.lru_
      ((Timeline.new num_frames k).run calls).replacer.lru_k_ k
      ((Timeline.new num_frames k).run calls).accesses
      ((Timeline.new num_frames k).run calls).now := by
  have h := Inv.run (Inv.new num_frames k) calls
  unfold Timeline.Inv at h
  rw [run_k_] at h
  exact h

end Timeline

namespace Tracking

variable {store : Int → Option LRUKNode} {lru lru_k : List Int} {k : Nat}
  {accesses : Int → List Nat} {now : Nat}

theorem latest_eq (h : Tracking store lru lru_k k accesses now) {f : Int} {n : LRUKNode}
    (hf : store f = some n) : (accesses f).head? = some ((accesses f).headD 0) := by
  have hc := h.count f n hf
  cases ha : accesses f with
  | nil => rw [ha] at hc; simp at hc; omega
  | cons t ts => rfl

end Tracking

namespace LRUKReplacer

theorem IsEvictable_tracked {s : LRUKReplacer} {f : Int} (h : s.IsEvictable f = true) :
    ∃ n, s.node_store_ f = some n := by
  unfold IsEvictable at h
  cases hs : s.node_store_ f with
  | none => rw [hs] at h; cases h
  | some n => exact ⟨n, rfl⟩

/-- The victim when some evictable frame has fewer than `k` recorded accesses: the evictable
frame of the list at `lru_head_` whose latest access is the oldest. -/
theorem Evict_under_k {s : LRUKReplacer} {k now : Nat} {accesses : Int → List Nat}
    (h : Tracking s.node_store_ s.lru_ s.lru_k_ k accesses now) {f : Int}
    (hf : s.IsEvictable f = true) (hk : (accesses f).length < k) :
    ∃ g, s.Evict.1 = some g ∧ s.IsEvictable g = true ∧ (accesses g).length < k ∧
      ∃ tg, (accesses g).head? = some tg ∧
        ∀ f', s.IsEvictable f' = true → (accesses f').length < k → f' ≠ g →
          ∃ tf, (accesses f').head? = some tf ∧ tg < tf := by
  obtain ⟨n, hn⟩ := IsEvictable_tracked hf
  have hmem : f ∈ s.lru_ := (h.mem_lru f).2 ⟨n, hn, by rw [(h.count f n hn).1]; exact hk⟩
  obtain ⟨g, hg⟩ := scan_isSome hmem hf
  obtain ⟨hgm, hge, hgo⟩ := scan_eq_some h.sorted_lru hg
  obtain ⟨m, hm, hmk⟩ := (h.mem_lru g).1 hgm
  refine ⟨g, by simp [Evict, hg], hge, by rw [← (h.count g m hm).1]; exact hmk,
    (accesses g).headD 0, h.latest_eq hm, ?_⟩
  intro f' hf' hk' hne
  obtain ⟨n', hn'⟩ := IsEvictable_tracked hf'
  have hmem' : f' ∈ s.lru_ :=
    (h.mem_lru f').2 ⟨n', hn', by rw [(h.count f' n' hn').1]; exact hk'⟩
  exact ⟨_, h.latest_eq hn', hgo f' hmem' hf' hne⟩

/-- The victim when every evictable frame has at least `k` recorded accesses: the evictable
frame whose latest access is the oldest. -/
theorem Evict_full {s : LRUKReplacer} {k now : Nat} {accesses : Int → List Nat}
    (h : Tracking s.node_store_ s.lru_ s.lru_k_ k accesses now) {f : Int}
    (hf : s.IsEvictable f = true)
    (hall : ∀ f', s.IsEvictable f' = true → k ≤ (accesses f').length) :
    ∃ g, s.Evict.1 = some g ∧ s.IsEvictable g = true ∧
      ∃ tg, (accesses g).head? = some tg ∧
        ∀ f', s.IsEvictable f' = true → f' ≠ g →
          ∃ tf, (accesses f').head? = some tf ∧ tg < tf := by
  have inK : ∀ f', s.IsEvictable f' = true → f' ∈ s.lru_k_ := by
    intro f' hf'
    obtain ⟨n', hn'⟩ := IsEvictable_tracked hf'
    exact (h.mem_lru_k f').2 ⟨n', hn', by rw [(h.count f' n' hn').1]; exact hall f' hf'⟩
  have hnone : s.scan s.lru_ = none := by
    cases hs : s.scan s.lru_ with
    | none => rfl
    | some g =>
      obtain ⟨hgm, hge, _⟩ := scan_eq_some h.sorted_lru hs
      obtain ⟨m, hm, hmk⟩ := (h.mem_lru g).1 hgm
      have := hall g hge
      rw [← (h.count g m hm).1] at this
      omega
  obtain ⟨g, hg⟩ := scan_isSome (inK f hf) hf
  obtain ⟨hgm, hge, hgo⟩ := scan_eq_some h.sorted_lru_k hg
  obtain ⟨m, hm, _⟩ := (h.mem_lru_k g).1 hgm
  refine ⟨g, by simp [Evict, hnone, hg], hge, (accesses g).headD 0, h.latest_eq hm, ?_⟩
  intro f' hf' hne
  obtain ⟨n', hn'⟩ := IsEvictable_tracked hf'
  exact ⟨_, h.latest_eq hn', hgo f' (inK f' hf') hf' hne⟩

end LRUKReplacer

namespace Tracking

variable {store : Int → Option LRUKNode} {lru lru_k : List Int} {k : Nat}
  {accesses : Int → List Nat} {now : Nat}

theorem mem_lists (h : Tracking store lru lru_k k accesses now) {f : Int} {n : LRUKNode}
    (hf : store f = some n) : f ∈ lru ++ lru_k := by
  rcases Nat.lt_or_ge n.k_ k with hk | hk
  · exact List.mem_append_left _ ((h.mem_lru f).2 ⟨n, hf, hk⟩)
  · exact List.mem_append_right _ ((h.mem_lru_k f).2 ⟨n, hf, hk⟩)

end Tracking

theorem Timeline.run_replacer (tl : Timeline) (calls : List Call) :
    (tl.run calls).replacer = tl.replacer.run calls := by
  induction calls generalizing tl with
  | nil => rfl
  | cons call calls ih => exact ih (tl.step call)

/-- Every evictable frame of a reachable state is in one of the two lists. -/
theorem Timeline.evictable_mem_lists (num_frames k : Nat) (calls : List Call) {f : Int}
    (hf : ((Timeline.new num_frames k).run calls).replacer.IsEvictable f = true) :
    f ∈ ((Timeline.new num_frames k).run calls).replacer.lru_
      ++ ((Timeline.new num_frames k).run calls).replacer.lru_k_ := by
  obtain ⟨n, hn⟩ := LRUKReplacer.IsEvictable_tracked hf
  exact (Timeline.reachable num_frames k calls).mem_lists hn

/-! ## The contract of `Evict` -/

/-- C8 as stated fails on the code. With `k = 2`, frame 1 is accessed at the times 0, 1 and 4
and frame 2 at the times 2 and 3, and both are made evictable, so that every evictable frame
has at least `k` recorded accesses. The second most recent access of frame 1 (time 1) is older
than that of frame 2 (time 2), yet `Evict` returns frame 2. -/
theorem LRUKReplacer.Evict_not_by_k_distance :
    let tl := (Timeline.new 7 2).run
      [.RecordAccess 1, .RecordAccess 1, .RecordAccess 2, .RecordAccess 2, .RecordAccess 1,
        .SetEvictable 1 true, .SetEvictable 2 true]
    (∀ f, tl.replacer.IsEvictable f = true → 2 ≤ tl.recorded f) ∧
      tl.replacer.IsEvictable 1 = true ∧ tl.replacer.IsEvictable 2 = true ∧
      tl.kthRecent 2 1 = some 1 ∧ tl.kthRecent 2 2 = some 2 ∧
      tl.replacer.Evict.1 = some 2 := by
  intro tl
  refine ⟨?_, by decide, by decide, by decide, by decide, by decide⟩
  intro f hf
  have hm := Timeline.evictable_mem_lists 7 2 _ hf
  have hl : tl.replacer.lru_ ++ tl.replacer.lru_k_ = [1, 2] := by decide
  rw [hl] at hm
  simp only [List.mem_cons, List.mem_singleton, List.not_mem_nil, or_false] at hm
  rcases hm with rfl | rfl <;> decide

/-- C8 amended: in every state reached from a fresh replacer in which at least one frame is
evictable and every evictable frame has at least `k` recorded accesses, `Evict` returns an
evictable frame whose most recent access is older than the most recent access of every other
evictable frame. -/
theorem LRUKReplacer.Evict_full_history (num_frames k : Nat) (calls : List Call) (tl : Timeline)
    (htl : tl = (Timeline.new num_frames k).run calls) (f : Int)
    (hf : tl.replacer.IsEvictable f = true)
    (hall : ∀ f', tl.replacer.IsEvictable f' = true → k ≤ tl.recorded f') :
    ∃ g, tl.replacer.Evict.1 = some g ∧ tl.replacer.IsEvictable g = true ∧
      ∃ tg, tl.latest g = some tg ∧
        ∀ f', tl.replacer.IsEvictable f' = true → f' ≠ g →
          ∃ tf, tl.latest f' = some tf ∧ tg < tf := by
  subst htl
  exact LRUKReplacer.Evict_full (Timeline.reachable num_frames k calls) hf hall

/-- Witness of C8 amended: with `k = 2`, after frame 1 is accessed at the times 0 and 1 and
frame 2 at the times 2 and 3, both evictable. -/
theorem LRUKReplacer.Evict_full_history_witness :
    ∃ g, ((Timeline.new 7 2).run
        [.RecordAccess 1, .RecordAccess 1, .RecordAccess 2, .RecordAccess 2,
          .SetEvictable 1 true, .SetEvictable 2 true]).replacer.Evict.1 = some g ∧
      ((Timeline.new 7 2).run
        [.RecordAccess 1, .RecordAccess 1, .RecordAccess 2, .RecordAccess 2,
          .SetEvictable 1 true, .SetEvictable 2 true]).replacer.IsEvictable g = true ∧
      ∃ tg, ((Timeline.new 7 2).run
          [.RecordAccess 1, .RecordAccess 1, .RecordAccess 2, .RecordAccess 2,
            .SetEvictable 1 true, .SetEvictable 2 true]).latest g = some tg ∧
        ∀ f', ((Timeline.new 7 2).run
            [.RecordAccess 1, .RecordAccess 1, .RecordAccess 2, .RecordAccess 2,
              .SetEvictable 1 true, .SetEvictable 2 true]).replacer.IsEvictable f' = true →
          f' ≠ g →
          ∃ tf, ((Timeline.new 7 2).run
            [.RecordAccess 1, .RecordAccess 1, .RecordAccess 2, .RecordAccess 2,
              .SetEvictable 1 true, .SetEvictable 2 true]).latest f' = some tf ∧ tg < tf :=
  LRUKReplacer.Evict_full_history 7 2
    [.RecordAccess 1, .RecordAccess 1, .RecordAccess 2, .RecordAccess 2,
      .SetEvictable 1 true, .SetEvictable 2 true] _ rfl 1 (by decide)
    (fun f' hf' => by
      have hm := Timeline.evictable_mem_lists 7 2 _ hf'
      have hl : ((Timeline.new 7 2).run
          [.RecordAccess 1, .RecordAccess 1, .RecordAccess 2, .RecordAccess 2,
            .SetEvictable 1 true, .SetEvictable 2 true]).replacer.lru_
          ++ ((Timeline.new 7 2).run
          [.RecordAccess 1, .RecordAccess 1, .RecordAccess 2, .RecordAccess 2,
            .SetEvictable 1 true, .SetEvictable 2 true]).replacer.lru_k_ = [2, 1] := by decide
      rw [hl] at hm
      simp only [List.mem_cons, List.mem_singleton, List.not_mem_nil, or_false] at hm
      rcases hm with rfl | rfl <;> decide)

/-- C9 as stated fails on the code. With `k = 3`, frame 1 is accessed at the times 0 and 2 and
frame 2 at the time 1, and both are made evictable; both have fewer than `k` recorded
accesses. The earliest access of frame 1 (time 0) is older than that of frame 2 (time 1), yet
`Evict` returns frame 2. -/
theorem LRUKReplacer.Evict_not_by_earliest_access :
    let tl := (Timeline.new 7 3).run
      [.RecordAccess 1, .RecordAccess 2, .RecordAccess 1,
        .SetEvictable 1 true, .SetEvictable 2 true]
    tl.replacer.IsEvictable 1 = true ∧ tl.recorded 1 < 3 ∧
      tl.replacer.IsEvictable 2 = true ∧ tl.recorded 2 < 3 ∧
      tl.earliest 1 = some 0 ∧ tl.earliest 2 = some 1 ∧
      tl.replacer.Evict.1 = some 2 := by
  decide

/-- C9 amended: in every state reached from a fresh replacer (any `k`) where some evictable
frame has fewer than `k` recorded accesses, `Evict` returns, among the evictable frames with
fewer than `k` accesses, the one whose most recent recorded access is the oldest. -/
theorem LRUKReplacer.Evict_under_k_least_recent (num_frames k : Nat) (calls : List Call)
    (tl : Timeline) (htl : tl = (Timeline.new num_frames k).run calls) (f : Int)
    (hf : tl.replacer.IsEvictable f = true) (hk : tl.recorded f < k) :
    ∃ g, tl.replacer.Evict.1 = some g ∧ tl.replacer.IsEvictable g = true ∧
      tl.recorded g < k ∧
      ∃ tg, tl.latest g = some tg ∧
        ∀ f', tl.replacer.IsEvictable f' = true → tl.recorded f' < k → f' ≠ g →
          ∃ tf, tl.latest f' = some tf ∧ tg < tf := by
  subst htl
  exact LRUKReplacer.Evict_under_k (Timeline.reachable num_frames k calls) hf hk

/-- Witness of C9 amended: with `k = 3`, after frame 1 is accessed at the times 0 and 2 and
frame 2 at the time 1, both evictable. -/
theorem LRUKReplacer.Evict_under_k_least_recent_witness :
    ∃ g, ((Timeline.new 7 3).run
        [.RecordAccess 1, .RecordAccess 2, .RecordAccess 1,
          .SetEvictable 1 true, .SetEvictable 2 true]).replacer.Evict.1 = some g ∧
      ((Timeline.new 7 3).run
        [.RecordAccess 1, .RecordAccess 2, .RecordAccess 1,
          .SetEvictable 1 true, .SetEvictable 2 true]).replacer.IsEvictable g = true ∧
      ((Timeline.new 7 3).run
        [.RecordAccess 1, .RecordAccess 2, .RecordAccess 1,
          .SetEvictable 1 true, .SetEvictable 2 true]).recorded g < 3 ∧
      ∃ tg, ((Timeline.new 7 3).run
          [.RecordAccess 1, .RecordAccess 2, .RecordAccess 1,
            .SetEvictable 1 true, .SetEvictable 2 true]).latest g = some tg ∧
        ∀ f', ((Timeline.new 7 3).run
            [.RecordAccess 1, .RecordAccess 2, .RecordAccess 1,
              .SetEvictable 1 true, .SetEvictable 2 true]).replacer.IsEvictable f' = true →
          ((Timeline.new 7 3).run
            [.RecordAccess 1, .RecordAccess 2, .RecordAccess 1,
              .SetEvictable 1 true, .SetEvictable 2 true]).recorded f' < 3 → f' ≠ g →
          ∃ tf, ((Timeline.new 7 3).run
            [.RecordAccess 1, .RecordAccess 2, .RecordAccess 1,
              .SetEvictable 1 true, .SetEvictable 2 true]).latest f' = some tf ∧ tg < tf :=
  LRUKReplacer.Evict_under_k_least_recent 7 3
    [.RecordAccess 1, .RecordAccess 2, .RecordAccess 1,
      .SetEvictable 1 true, .SetEvictable 2 true] _ rfl 1 (by decide) (by decide)

/-- C10, frames with fewer than `k` accesses are preferred victims: in every state reached from
a fresh replacer, if at least one evictable frame has fewer than `k` recorded accesses, then
`Evict` returns a frame with fewer than `k` recorded accesses, whatever the evictable frames
with `k` or more accesses are. -/
theorem LRUKReplacer.Evict_prefers_under_k (num_frames k : Nat) (calls : List Call)
    (tl : Timeline) (htl : tl = (Timeline.new num_frames k).run calls) (f : Int)
    (hf : tl.replacer.IsEvictable f = true) (hk : tl.recorded f < k) :
    ∃ g, tl.replacer.Evict.1 = some g ∧ tl.recorded g < k := by
  subst htl
  obtain ⟨g, hg, _, hgk, _⟩ :=
    LRUKReplacer.Evict_under_k (Timeline.reachable num_frames k calls) hf hk
  exact ⟨g, hg, hgk⟩

/-- Witness of C10: with `k = 2`, after frame 1 is accessed twice and frame 2 once, both
evictable, frame 2 has fewer than `k` accesses. -/
theorem LRUKReplacer.Evict_prefers_under_k_witness :
    ∃ g, ((Timeline.new 7 2).run
        [.RecordAccess 1, .RecordAccess 1, .RecordAccess 2,
          .SetEvictable 1 true, .SetEvictable 2 true]).replacer.Evict.1 = some g ∧
      ((Timeline.new 7 2).run
        [.RecordAccess 1, .RecordAccess 1, .RecordAccess 2,
          .SetEvictable 1 true, .SetEvictable 2 true]).recorded g < 2 :=
  LRUKReplacer.Evict_prefers_under_k 7 2
    [.RecordAccess 1, .RecordAccess 1, .RecordAccess 2,
      .SetEvictable 1 true, .SetEvictable 2 true] _ rfl 2 (by decide) (by decide)

namespace LRUKReplacer

/-- What `Evict` returns was evictable, and has no node afterwards. -/
theorem Evict_some {s : LRUKReplacer} {g : Int} (h : s.Evict.1 = some g) :
    s.IsEvictable g = true ∧ s.Evict.2.node_store_ g = none := by
  unfold Evict at h ⊢
  cases h1 : s.scan s.lru_ with
  | some g1 =>
    rw [h1] at h
    simp only [Option.some.injEq] at h
    subst h
    exact ⟨List.find?_some h1, by simp [evictNode, RemoveNode]⟩
  | none =>
    rw [h1] at h
    simp only [] at h ⊢
    cases h2 : s.scan s.lru_k_ with
    | some g2 =>
      rw [h2] at h
      simp only [Option.some.injEq] at h
      subst h
      exact ⟨List.find?_some h2, by simp [evictNode, RemoveNode]⟩
    | none =>
      rw [h2] at h
      cases h

theorem SetEvictable_error_iff (s : LRUKReplacer) (f : Int) (b : Bool) :
    (∃ e, s.SetEvictable f b = .error e) ↔ s.node_store_ f = none := by
  unfold SetEvictable
  cases hs : s.node_store_ f with
  | none => simp
  | some n =>
    simp only []
    split_ifs <;> simp

theorem Remove_error_iff (s : LRUKReplacer) (f : Int) :
    (∃ e, s.Remove f = .error e) ↔
      ∃ n, s.node_store_ f = some n ∧ n.is_evictable_ = false := by
  unfold Remove
  cases hs : s.node_store_ f with
  | none => simp
  | some n =>
    simp only []
    split_ifs with h <;> simp [h]

/-- A frame without a node gets none from a call other than its own `RecordAccess`. -/
theorem step_untracked {s : LRUKReplacer} {f : Int} (hs : s.node_store_ f = none) (call : Call)
    (hc : call ≠ .RecordAccess f) : (s.step call).node_store_ f = none := by
  cases call with
  | RecordAccess g =>
    have hg : f ≠ g := fun e => hc (by rw [e])
    simp only [step, RecordAccess]
    cases s.node_store_ g <;> simp only [] <;> split <;>
      simp [PutFront, RemoveNode, Function.update_noteq hg, hs]
  | SetEvictable g b =>
    simp only [step, SetEvictable]
    cases hg : s.node_store_ g with
    | none => exact hs
    | some n =>
      have hfg : f ≠ g := by
        intro e
        rw [e, hg] at hs
        cases hs
      by_cases hb : n.is_evictable_ = b
      · simp only [hb, ne_eq, not_true_eq_false, if_false]
        exact hs
      · simp only [ne_eq, hb, not_false_eq_true, if_true]
        simp [Function.update_noteq hfg, hs]
  | Evict =>
    simp only [step, Evict]
    cases s.scan s.lru_ with
    | some g =>
      by_cases e : f = g
      · subst e; simp [evictNode, RemoveNode]
      · simp [evictNode, RemoveNode, Function.update_noteq e, hs]
    | none =>
      simp only []
      cases s.scan s.lru_k_ with
      | some g =>
        by_cases e : f = g
        · subst e; simp [evictNode, RemoveNode]
        · simp [evictNode, RemoveNode, Function.update_noteq e, hs]
      | none => exact hs
  | Remove g =>
    simp only [step, Remove]
    cases hg : s.node_store_ g with
    | none => exact hs
    | some n =>
      simp only []
      split_ifs
      · by_cases e : f = g
        · subst e; simp [RemoveNode]
        · simp [RemoveNode, Function.update_noteq e, hs]
      · exact hs

theorem run_untracked {s : LRUKReplacer} {f : Int} (hs : s.node_store_ f = none)
    (calls : List Call) (hc : ∀ c ∈ calls, c ≠ Call.RecordAccess f) :
    (s.run calls).node_store_ f = none := by
  induction calls generalizing s with
  | nil => exact hs
  | cons call calls ih =>
    exact ih (step_untracked hs call (hc call (List.mem_cons_self _ _)))
      (fun c hm => hc c (List.mem_cons_of_mem _ hm))

theorem Evict_ne_of_untracked {s : LRUKReplacer} {f : Int} (hs : s.node_store_ f = none) :
    s.Evict.1 ≠ some f := by
  intro h
  have := (Evict_some h).1
  simp [IsEvictable, hs] at this

end LRUKReplacer

namespace Tracking

variable {store : Int → Option LRUKNode} {lru lru_k : List Int} {k : Nat}
  {accesses : Int → List Nat} {now : Nat}

theorem untracked_iff (h : Tracking store lru lru_k k accesses now) (f : Int) :
    store f = none ↔ (accesses f).length = 0 := by
  constructor
  · intro hs
    rw [h.forgotten f hs]; rfl
  · intro hl
    cases hs : store f with
    | none => rfl
    | some n =>
      have := h.count f n hs
      omega

end Tracking

/-! ## The contract of `Size`, `SetEvictable` and `Remove` -/

/-- C11 on the code: on a fresh replacer, after `RecordAccess(1)`, `SetEvictable(1, true)` and
`Remove(1)`, no frame is tracked and none is evictable, yet `Size()` returns 1: `Remove`
forgets the node without decrementing `evictable_size_`, which `Evict` does decrement. -/
theorem LRUKReplacer.Size_after_Remove :
    ((LRUKReplacer.new 7 2).run [.RecordAccess 1, .SetEvictable 1 true, .Remove 1]).Size = 1 ∧
      ((LRUKReplacer.new 7 2).run
        [.RecordAccess 1, .SetEvictable 1 true, .Remove 1]).evictableCount = 0 ∧
      (∀ f, ((LRUKReplacer.new 7 2).run
        [.RecordAccess 1, .SetEvictable 1 true, .Remove 1]).node_store_ f = none) ∧
      ((LRUKReplacer.new 7 2).run [.RecordAccess 1, .SetEvictable 1 true, .Evict]).Size = 0 := by
  refine ⟨by decide, by decide, ?_, by decide⟩
  intro f
  cases hs : ((LRUKReplacer.new 7 2).run
      [.RecordAccess 1, .SetEvictable 1 true, .Remove 1]).node_store_ f with
  | none => rfl
  | some n =>
    have htr := Timeline.reachable 7 2 [.RecordAccess 1, .SetEvictable 1 true, .Remove 1]
    rw [Timeline.run_replacer] at htr
    have hm := htr.mem_lists hs
    have hl : ((LRUKReplacer.new 7 2).run
        [.RecordAccess 1, .SetEvictable 1 true, .Remove 1]).lru_
        ++ ((LRUKReplacer.new 7 2).run
        [.RecordAccess 1, .SetEvictable 1 true, .Remove 1]).lru_k_ = [] := by decide
    rw [show (Timeline.new 7 2).replacer = LRUKReplacer.new 7 2 from rfl, hl] at hm
    cases hm

/-- C12, only evictable frames are evicted: in every state reached from a fresh replacer,
`Evict` returns a frame exactly when some tracked frame is evictable; the frame returned was
tracked and evictable before the call, and has no node after it, so that `SetEvictable` on it
then throws. -/
theorem LRUKReplacer.Evict_only_evictable (num_frames k : Nat) (calls : List Call)
    (tl : Timeline) (htl : tl = (Timeline.new num_frames k).run calls) :
    ((∃ g, tl.replacer.Evict.1 = some g) ↔
        ∃ f n, tl.replacer.node_store_ f = some n ∧ n.is_evictable_ = true) ∧
      ∀ g, tl.replacer.Evict.1 = some g →
        (∃ n, tl.replacer.node_store_ g = some n ∧ n.is_evictable_ = true) ∧
        tl.replacer.Evict.2.node_store_ g = none ∧
        ∀ b, ∃ e, tl.replacer.Evict.2.SetEvictable g b = .error e := by
  subst htl
  have hev : ∀ g, ((Timeline.new num_frames k).run calls).replacer.Evict.1 = some g →
      ∃ n, ((Timeline.new num_frames k).run calls).replacer.node_store_ g = some n ∧
        n.is_evictable_ = true := by
    intro g hg
    have h1 := (LRUKReplacer.Evict_some hg).1
    obtain ⟨n, hn⟩ := LRUKReplacer.IsEvictable_tracked h1
    refine ⟨n, hn, ?_⟩
    simpa [LRUKReplacer.IsEvictable, hn] using h1
  refine ⟨⟨?_, ?_⟩, ?_⟩
  · rintro ⟨g, hg⟩
    exact ⟨g, hev g hg⟩
  · rintro ⟨f, n, hn, he⟩
    have hf : ((Timeline.new num_frames k).run calls).replacer.IsEvictable f = true := by
      simp [LRUKReplacer.IsEvictable, hn, he]
    have h := Timeline.reachable num_frames k calls
    rcases Nat.lt_or_ge ((((Timeline.new num_frames k).run calls).accesses f).length) k
      with hk | hk
    · obtain ⟨g, hg, _⟩ := LRUKReplacer.Evict_under_k h hf hk
      exact ⟨g, hg⟩
    · rcases List.mem_append.1 (h.mem_lists hn) with hm | hm
      · obtain ⟨m, hm1, hm2⟩ := (h.mem_lru f).1 hm
        rw [hn] at hm1
        cases hm1
        have := (h.count f n hn).1
        omega
      · cases h1 : ((Timeline.new num_frames k).run calls).replacer.scan
            ((Timeline.new num_frames k).run calls).replacer.lru_ with
        | some g => exact ⟨g, by simp [LRUKReplacer.Evict, h1]⟩
        | none =>
          obtain ⟨g, hg⟩ := LRUKReplacer.scan_isSome hm hf
          exact ⟨g, by simp [LRUKReplacer.Evict, h1, hg]⟩
  · intro g hg
    have h2 := (LRUKReplacer.Evict_some hg).2
    exact ⟨hev g hg, h2, fun b => (LRUKReplacer.SetEvictable_error_iff _ g b).2 h2⟩

/-- Witness of C12: after `RecordAccess(1)` and `SetEvictable(1, true)`, `Evict` returns
frame 1. -/
theorem LRUKReplacer.Evict_only_evictable_witness :
    (∃ n, ((Timeline.new 7 2).run [.RecordAccess 1, .SetEvictable 1 true]).replacer.node_store_ 1
        = some n ∧ n.is_evictable_ = true) ∧
      ((Timeline.new 7 2).run
        [.RecordAccess 1, .SetEvictable 1 true]).replacer.Evict.2.node_store_ 1 = none ∧
      ∀ b, ∃ e, ((Timeline.new 7 2).run
        [.RecordAccess 1, .SetEvictable 1 true]).replacer.Evict.2.SetEvictable 1 b = .error e :=
  (LRUKReplacer.Evict_only_evictable 7 2 [.RecordAccess 1, .SetEvictable 1 true] _ rfl).2 1
    (by decide)

/-- C13, `SetEvictable` fails exactly on unknown frames: in every state reached from a fresh
replacer, `SetEvictable(f, b)` throws exactly when `f` has no recorded access; when it throws
the state is as before; when it returns, the lists, the nodes of the other frames and the
access count of `f` are as before, the evictable flag of `f` is `b`, and `Size()` has moved by
one with the flag (up when the flag was set, down when it was cleared). -/
theorem LRUKReplacer.SetEvictable_contract (num_frames k : Nat) (calls : List Call)
    (tl : Timeline) (htl : tl = (Timeline.new num_frames k).run calls) (f : Int) (b : Bool) :
    ((∃ e, tl.replacer.SetEvictable f b = .error e) ↔ tl.recorded f = 0) ∧
      ((∃ e, tl.replacer.SetEvictable f b = .error e) →
        tl.replacer.step (.SetEvictable f b) = tl.replacer) ∧
      ∀ s', tl.replacer.SetEvictable f b = .ok s' →
        s'.lru_ = tl.replacer.lru_ ∧ s'.lru_k_ = tl.replacer.lru_k_ ∧
        s'.k_ = tl.replacer.k_ ∧ s'.replacer_size_ = tl.replacer.replacer_size_ ∧
        (∀ g, g ≠ f → s'.node_store_ g = tl.replacer.node_store_ g) ∧
        ∃ n, tl.replacer.node_store_ f = some n ∧
          s'.node_store_ f = some { n with is_evictable_ := b } ∧
          s'.Size =
            (if n.is_evictable_ = b then tl.replacer.Size
            else if b = true then (tl.replacer.Size + 1) % 2 ^ 64
            else (tl.replacer.Size + 2 ^ 64 - 1) % 2 ^ 64) := by
  subst htl
  have h := Timeline.reachable num_frames k calls
  refine ⟨?_, ?_, ?_⟩
  · rw [LRUKReplacer.SetEvictable_error_iff]
    exact h.untracked_iff f
  · rintro ⟨e, he⟩
    simp [LRUKReplacer.step, he]
  · intro s' hs'
    unfold LRUKReplacer.SetEvictable at hs'
    cases hn : ((Timeline.new num_frames k).run calls).replacer.node_store_ f with
    | none => rw [hn] at hs'; cases hs'
    | some n =>
      rw [hn] at hs'
      simp only [] at hs'
      by_cases hb : n.is_evictable_ = b
      · simp only [hb, ne_eq, not_true_eq_false, if_false, Except.ok.injEq] at hs'
        subst hs'
        refine ⟨rfl, rfl, rfl, rfl, fun _ _ => rfl, n, rfl, ?_, by simp [hb]⟩
        rw [hn, ← hb]
      · simp only [ne_eq, hb, not_false_eq_true, if_true, Except.ok.injEq] at hs'
        subst hs'
        refine ⟨rfl, rfl, rfl, rfl, fun g hg => by simp [Function.update_noteq hg], n, rfl,
          by simp, ?_⟩
        simp only [LRUKReplacer.Size, hb, if_false]
        cases hbb : b with
        | true =>
          have : n.is_evictable_ = false := by
            cases hne : n.is_evictable_ with
            | false => rfl
            | true => rw [hne, hbb] at hb; exact absurd rfl hb
          simp [this]
        | false =>
          have : n.is_evictable_ = true := by
            cases hne : n.is_evictable_ with
            | true => rfl
            | false => rw [hne, hbb] at hb; exact absurd rfl hb
          simp [this]

/-- Witness of C13: `SetEvictable(1, true)` after `RecordAccess(1)` returns, and leaves the
lists as they were. -/
theorem LRUKReplacer.SetEvictable_contract_witness :
    ((Timeline.new 7 2).run [.RecordAccess 1]).replacer.SetEvictable 1 true
        = .ok (((Timeline.new 7 2).run [.RecordAccess 1]).replacer.step (.SetEvictable 1 true)) ∧
      (((Timeline.new 7 2).run [.RecordAccess 1]).replacer.step (.SetEvictable 1 true)).lru_
        = ((Timeline.new 7 2).run [.RecordAccess 1]).replacer.lru_ ∧
      (((Timeline.new 7 2).run [.RecordAccess 1]).replacer.step (.SetEvictable 1 true)).lru_k_
        = ((Timeline.new 7 2).run [.RecordAccess 1]).replacer.lru_k_ :=
  ⟨rfl,
    ((LRUKReplacer.SetEvictable_contract 7 2 [.RecordAccess 1] _ rfl 1 true).2.2 _ rfl).1,
    ((LRUKReplacer.SetEvictable_contract 7 2 [.RecordAccess 1] _ rfl 1 true).2.2 _ rfl).2.1⟩

/-- C14, the error contract of `Remove`: in every state reached from a fresh replacer,
`Remove(f)` throws exactly when `f` is tracked and not evictable, and the state is then as
before; on an unknown frame it returns the state as it is; on a tracked evictable frame it
returns a state in which `f` has no node and no recorded access, and after any further calls
without a `RecordAccess(f)` the frame still has no node and `Evict` does not return it. -/
theorem LRUKReplacer.Remove_contract (num_frames k : Nat) (calls : List Call)
    (tl : Timeline) (htl : tl = (Timeline.new num_frames k).run calls) (f : Int) :
    ((∃ e, tl.replacer.Remove f = .error e) ↔
        ∃ n, tl.replacer.node_store_ f = some n ∧ n.is_evictable_ = false) ∧
      ((∃ e, tl.replacer.Remove f = .error e) →
        tl.replacer.step (.Remove f) = tl.replacer) ∧
      (tl.replacer.node_store_ f = none → tl.replacer.Remove f = .ok tl.replacer) ∧
      (tl.replacer.IsEvictable f = true →
        ∃ s', tl.replacer.Remove f = .ok s' ∧ s'.node_store_ f = none ∧
          f ∉ s'.lru_ ∧ f ∉ s'.lru_k_ ∧ (tl.step (.Remove f)).recorded f = 0 ∧
          ∀ more : List Call, (∀ c ∈ more, c ≠ Call.RecordAccess f) →
            (s'.run more).node_store_ f = none ∧ (s'.run more).Evict.1 ≠ some f) := by
  subst htl
  have h := Timeline.reachable num_frames k calls
  refine ⟨LRUKReplacer.Remove_error_iff _ f, ?_, ?_, ?_⟩
  · rintro ⟨e, he⟩
    simp [LRUKReplacer.step, he]
  · intro hs
    simp [LRUKReplacer.Remove, hs]
  · intro hf
    obtain ⟨n, hn⟩ := LRUKReplacer.IsEvictable_tracked hf
    have hne : n.is_evictable_ = true := by
      simpa [LRUKReplacer.IsEvictable, hn] using hf
    have hr : ((Timeline.new num_frames k).run calls).replacer.Remove f =
        .ok ({ ((Timeline.new num_frames k).run calls).replacer with
          node_store_ := Function.update
            ((Timeline.new num_frames k).run calls).replacer.node_store_ f none
          }.RemoveNode f) := by
      simp [LRUKReplacer.Remove, hn, hne]
    have hnone : ({ ((Timeline.new num_frames k).run calls).replacer with
          node_store_ := Function.update
            ((Timeline.new num_frames k).run calls).replacer.node_store_ f none
          }.RemoveNode f).node_store_ f = none := by
      simp [LRUKReplacer.RemoveNode]
    refine ⟨_, hr, hnone, ?_, ?_, ?_, ?_⟩
    · exact (sorted_nodup h.sorted_lru).not_mem_erase
    · exact (sorted_nodup h.sorted_lru_k).not_mem_erase
    · simp [Timeline.step, Timeline.recorded, hr]
    · intro more hmore
      have := LRUKReplacer.run_untracked hnone more hmore
      exact ⟨this, LRUKReplacer.Evict_ne_of_untracked this⟩

/-- Witness of C14: `Remove(1)` after `RecordAccess(1)` and `SetEvictable(1, true)`. -/
theorem LRUKReplacer.Remove_contract_witness :
    ∃ s', ((Timeline.new 7 2).run
        [.RecordAccess 1, .SetEvictable 1 true]).replacer.Remove 1 = .ok s' ∧
      s'.node_store_ 1 = none ∧ 1 ∉ s'.lru_ ∧ 1 ∉ s'.lru_k_ ∧
      (((Timeline.new 7 2).run
        [.RecordAccess 1, .SetEvictable 1 true]).step (.Remove 1)).recorded 1 = 0 ∧
      ∀ more : List Call, (∀ c ∈ more, c ≠ Call.RecordAccess 1) →
        (s'.run more).node_store_ 1 = none ∧ (s'.run more).Evict.1 ≠ some 1 :=
  (LRUKReplacer.Remove_contract 7 2 [.RecordAccess 1, .SetEvictable 1 true] _ rfl 1).2.2.2
    (by decide)

/-- C15, the eviction scenario: on a fresh replacer with `k = 2`, after `RecordAccess(1)`,
`RecordAccess(2)`, `RecordAccess(3)` and each of the three frames marked evictable, `Evict`
returns frame 1. -/
theorem LRUKReplacer.Evict_scenario :
    ((LRUKReplacer.new 7 2).run
      [.RecordAccess 1, .RecordAccess 2, .RecordAccess 3,
        .SetEvictable 1 true, .SetEvictable 2 true, .SetEvictable 3 true]).Evict.1 = some 1 := by
  decide

/-! ## Lemmas on reachable nodes -/

namespace Children
variable {β : Type}

theorem mem_assign {c : Char} {n : β} {l : List (Char × β)} {e : Char × β}
    (he : e ∈ assign c n l) : e = (c, n) ∨ e ∈ l := by
  induction l with
  | nil => simpa [assign] using he
  | cons hd tl ih =>
    obtain ⟨d, x⟩ := hd
    unfold assign at he
    split_ifs at he with h1 h2
    · simpa using he
    · rcases List.mem_cons.1 he with he | he
      · exact Or.inl he
      · exact Or.inr (List.mem_cons_of_mem _ he)
    · rcases List.mem_cons.1 he with he | he
      · exact Or.inr (by rw [he]; exact List.mem_cons_self _ _)
      · rcases ih he with he | he
        · exact Or.inl he
        · exact Or.inr (List.mem_cons_of_mem _ he)

theorem assign_sorted (c : Char) (n : β) {l : List (Char × β)}
    (hl : l.Pairwise (fun a b => a.1 < b.1)) :
    (assign c n l).Pairwise (fun a b => a.1 < b.1) := by
  induction l with
  | nil => simp [assign]
  | cons hd tl ih =>
    obtain ⟨d, x⟩ := hd
    have hl' := List.pairwise_cons.1 hl
    unfold assign
    split_ifs with h1 h2
    · refine List.pairwise_cons.2 ⟨?_, hl⟩
      intro e he
      rcases List.mem_cons.1 he with he | he
      · rw [he]; exact h1
      · exact lt_trans h1 (hl'.1 e he)
    · subst h2
      exact List.pairwise_cons.2 ⟨hl'.1, hl'.2⟩
    · refine List.pairwise_cons.2 ⟨?_, ih hl'.2⟩
      intro e he
      rcases mem_assign he with he | he
      · rw [he]
        exact lt_of_le_of_ne (not_lt.1 h1) h2
      · exact hl'.1 e he

theorem erase_sublist (c : Char) (l : List (Char × β)) : List.Sublist (erase c l) l := by
  induction l with
  | nil => exact List.Sublist.slnil
  | cons hd tl ih =>
    obtain ⟨d, x⟩ := hd
    unfold erase
    split_ifs
    · exact List.Sublist.cons _ ih
    · exact List.Sublist.cons₂ _ ih

theorem assign_ne_nil (c : Char) (n : β) (l : List (Char × β)) :
    (assign c n l).isEmpty = false := by
  cases l with
  | nil => rfl
  | cons hd tl =>
    obtain ⟨d, x⟩ := hd
    unfold assign
    split_ifs <;> rfl

end Children

namespace Trie

variable {Ty : Type} {El : Ty → Type}

theorem walk_none (key : List Char) : walk (none : Option (TrieNode El)) key = none := by
  induction key with
  | nil => rfl
  | cons c key ih => exact ih

theorem TrieNode_eta (n : TrieNode El) : TrieNode.mk n.children_ n.value_ = n := by
  cases n; rfl

theorem Clone_eq (n : TrieNode El) : n.Clone = n := TrieNode_eta n

theorem all_none (P : TrieNode El → Prop) : all P (none : Option (TrieNode El)) := by
  intro key n h
  rw [walk_none] at h
  cases h

theorem all_child {P : TrieNode El → Prop} {ptr : Option (TrieNode El)} (h : all P ptr)
    (c : Char) : all P (child ptr c) :=
  fun key n hn => h (c :: key) n hn

theorem all_head {P : TrieNode El → Prop} {n : TrieNode El} (h : all P (some n)) : P n :=
  h [] n rfl

theorem all_some {P : TrieNode El → Prop} {n : TrieNode El} (hn : P n)
    (hc : ∀ c, all P (child (some n) c)) : all P (some n) := by
  intro key m hm
  cases key with
  | nil =>
    have : n = m := by simpa [walk] using hm
    rw [← this]; exact hn
  | cons c key => exact hc c key m hm

/-- A property of all reachable nodes survives `Put` when the nodes that `Put` makes have it. -/
theorem all_Put {P : TrieNode El → Prop} (T : Ty) (v : El T)
    (hleaf : P (TrieNode.mk [] (some ⟨T, v⟩)))
    (hterm : ∀ p : TrieNode El, P p → P (TrieNode.mk p.children_ (some ⟨T, v⟩)))
    (hnew : ∀ c next, P ((TrieNode.mk [] none : TrieNode El).setChild c next))
    (hset : ∀ (p : TrieNode El) c next, P p → P (p.setChild c next))
    (key : List Char) (ptr : Option (TrieNode El)) (h : all P ptr) :
    all P (some (Put.dfs T v key ptr)) := by
  induction key generalizing ptr with
  | nil =>
    cases ptr with
    | none =>
      refine all_some hleaf (fun c => ?_)
      exact all_none P
    | some p =>
      refine all_some (hterm p (all_head h)) (fun c => ?_)
      exact all_child h c
  | cons c key ih =>
    rw [Put_dfs_cons]
    have hnext := ih (child ptr c) (all_child h c)
    refine all_some ?_ (fun c' => ?_)
    · cases ptr with
      | none => exact hnew c _
      | some p =>
        simp only [Clone_eq]
        exact hset p c _ (all_head h)
    · by_cases hc : c' = c
      · subst hc
        rw [child_setChild_self]
        exact hnext
      · rw [child_setChild_ne _ _ hc, child_base]
        exact all_child h c'

theorem Remove_dfs_none (key : List Char) :
    Remove.dfs key (none : Option (TrieNode El)) = none := by
  cases key <;> rfl

/-- A property of all reachable nodes survives `Remove` when the nodes that `Remove` makes have
it. -/
theorem all_Remove {P : TrieNode El → Prop}
    (hdemote : ∀ p : TrieNode El, P p → p.children_.isEmpty = false →
      P (TrieNode.mk p.children_ none))
    (herase : ∀ (p : TrieNode El) c, P p →
      ¬ ((p.eraseChild c).children_.isEmpty = true ∧ (p.eraseChild c).is_value_node_ = false) →
      P (p.eraseChild c))
    (hset : ∀ (p : TrieNode El) c next, P p → P (p.setChild c next))
    (key : List Char) (ptr : Option (TrieNode El)) (h : all P ptr) :
    all P (Remove.dfs key ptr) := by
  induction key generalizing ptr with
  | nil =>
    cases ptr with
    | none => exact all_none P
    | some p =>
      simp only [Remove.dfs]
      split_ifs with hc
      · simp only [Bool.and_eq_true, Bool.not_eq_true', Bool.not_eq_eq_eq_not,
          Bool.not_true] at hc
        refine all_some (hdemote p (all_head h) hc.2) (fun c => ?_)
        exact all_child h c
      · exact all_none P
  | cons c key ih =>
    cases ptr with
    | none => exact all_none P
    | some p =>
      rw [Remove_dfs_cons]
      cases hq : child (some p) c with
      | none => exact all_none P
      | some q =>
        simp only []
        have hchild : all P (some q) := by
          rw [← hq]; exact all_child h c
        have hnext := ih (some q) hchild
        cases hr : Remove.dfs key (some q) with
        | none =>
          simp only [Clone_eq]
          split_ifs with he
          · exact all_none P
          · refine all_some (herase p c (all_head h) ?_) (fun c' => ?_)
            · intro hd
              apply he
              simp [hd.1, hd.2]
            · by_cases hc : c' = c
              · subst hc
                rw [child_eraseChild_self]
                exact all_none P
              · rw [child_eraseChild_ne _ hc]
                exact all_child h c'
        | some next =>
          simp only [Clone_eq]
          rw [hr] at hnext
          refine all_some (hset p c next (all_head h)) (fun c' => ?_)
          by_cases hc : c' = c
          · subst hc
            rw [child_setChild_self]
            exact hnext
          · rw [child_setChild_ne _ _ hc]
            exact all_child h c'

theorem not_dead_setChild (p : TrieNode El) (c : Char) (next : TrieNode El) :
    ¬ dead (p.setChild c next) := by
  intro h
  have := h.2
  simp [TrieNode.setChild, TrieNode.children_, Children.assign_ne_nil] at this

theorem WellFormed_Put (t : Trie El) (T : Ty) (key : List Char) (v : El T)
    (h : t.WellFormed) : (t.Put T key v).WellFormed := by
  refine all_Put T v ?_ ?_ ?_ ?_ (consumed key) t.root_ h
  · intro hd
    have := hd.1
    simp [TrieNode.is_value_node_, TrieNode.value_] at this
  · intro p _ hd
    have := hd.1
    simp [TrieNode.is_value_node_, TrieNode.value_] at this
  · intro c next
    exact not_dead_setChild _ c next
  · intro p c next _
    exact not_dead_setChild p c next

theorem WellFormed_Remove (t : Trie El) (key : List Char) (h : t.WellFormed) :
    (t.Remove key).WellFormed := by
  refine all_Remove ?_ ?_ ?_ (consumed key) t.root_ h
  · intro p _ hne hd
    have h2 : p.children_.isEmpty = true := hd.2
    rw [hne] at h2
    cases h2
  · intro p c _ hnd hd
    exact hnd ⟨hd.2, hd.1⟩
  · intro p c next _
    exact not_dead_setChild p c next

theorem WellFormed_empty : (Trie.empty : Trie El).WellFormed := all_none _

theorem WellFormed_build (updates : List (TrieUpdate El)) : (Trie.build updates).WellFormed := by
  have key : ∀ (t : Trie El), t.WellFormed →
      (updates.foldl Trie.apply t).WellFormed := by
    induction updates with
    | nil => intro t h; exact h
    | cons u us ih =>
      intro t h
      refine ih (t.apply u) ?_
      cases u with
      | Put T k v => exact WellFormed_Put t T k v h
      | Remove k => exact WellFormed_Remove t k h
  exact key _ WellFormed_empty

end Trie

namespace Trie

variable {Ty : Type} {El : Ty → Type}

theorem Ordered_Put (t : Trie El) (T : Ty) (key : List Char) (v : El T) (h : t.Ordered) :
    (t.Put T key v).Ordered := by
  refine all_Put T v ?_ ?_ ?_ ?_ (consumed key) t.root_ h
  · exact List.Pairwise.nil
  · intro p hp
    exact hp
  · intro c next
    exact Children.assign_sorted c next List.Pairwise.nil
  · intro p c next hp
    exact Children.assign_sorted c next hp

theorem Ordered_Remove (t : Trie El) (key : List Char) (h : t.Ordered) :
    (t.Remove key).Ordered := by
  refine all_Remove ?_ ?_ ?_ (consumed key) t.root_ h
  · intro p hp _
    exact hp
  · intro p c hp _
    exact List.Pairwise.sublist (Children.erase_sublist c p.children_) hp
  · intro p c next hp
    exact Children.assign_sorted c next hp

theorem Ordered_empty : (Trie.empty : Trie El).Ordered := all_none _

theorem Ordered_build (updates : List (TrieUpdate El)) : (Trie.build updates).Ordered := by
  have key : ∀ (t : Trie El), t.Ordered → (updates.foldl Trie.apply t).Ordered := by
    induction updates with
    | nil => intro t h; exact h
    | cons u us ih =>
      intro t h
      refine ih (t.apply u) ?_
      cases u with
      | Put T k v => exact Ordered_Put t T k v h
      | Remove k => exact Ordered_Remove t k h
  exact key _ Ordered_empty

theorem Get.loop_eq_walk [DecidableEq Ty] (T : Ty) (ptr : Option (TrieNode El))
    (key : List Char) :
    Get.loop T ptr key = (walk ptr key).bind (fun n => n.valueAs T) := by
  induction key generalizing ptr with
  | nil =>
    cases ptr with
    | none => rfl
    | some n => rw [Get.loop_nil_some]; rfl
  | cons c key ih =>
    rw [Get.loop_cons, ih]
    rfl

/-- What `Get` finds after `Remove`, it finds before. -/
theorem Get.loop_Remove_sub [DecidableEq Ty] (T : Ty) (key key' : List Char)
    (ptr : Option (TrieNode El)) (v : El T)
    (h : Get.loop T (Remove.dfs key ptr) key' = some v) : Get.loop T ptr key' = some v := by
  induction key generalizing ptr key' with
  | nil =>
    cases ptr with
    | none => rw [Remove_dfs_none, Get.loop_none] at h; cases h
    | some p =>
      simp only [Remove.dfs] at h
      split_ifs at h with hc
      · cases key' with
        | nil => rw [Get.loop_nil_some] at h; simp [TrieNode.valueAs, TrieNode.value_] at h
        | cons c' r =>
          rw [Get.loop_cons] at h ⊢
          exact h
      · rw [Get.loop_none] at h; cases h
  | cons c key ih =>
    cases ptr with
    | none => rw [Remove_dfs_none, Get.loop_none] at h; cases h
    | some p =>
      cases hq : child (some p) c with
      | none =>
        rw [Remove_dfs_cons, hq] at h
        simp only [] at h
        rw [Get.loop_none] at h; cases h
      | some q =>
        cases key' with
        | nil =>
          rw [Get.loop_Remove_cons_nil T c key p q hq] at h
          exact h
        | cons c' r =>
          by_cases hc : c' = c
          · subst hc
            rw [Get.loop_Remove_cons_same T c' key r p q hq] at h
            rw [Get.loop_cons, hq]
            exact ih r (some q) h
          · rw [Get.loop_Remove_cons_ne T hc key r p q hq] at h
            exact h

end Trie

/-! ## Lemmas on the `int` size of a key -/

namespace Trie

variable {Ty : Type} {El : Ty → Type}

theorem intSize_of_short {key : List Char} (h : key.length < 2 ^ 31) :
    intSize key = (key.length : Int) := by
  have hm : key.length % 2 ^ 32 = key.length := Nat.mod_eq_of_lt (by omega)
  unfold intSize
  rw [hm, if_pos h]

theorem consumed_of_short {key : List Char} (h : key.length < 2 ^ 31) : consumed key = key := by
  unfold consumed
  rw [intSize_of_short h, if_pos (Int.natCast_nonneg _), Int.toNat_natCast]
  exact List.take_length key

theorem consumed_eq_take (key : List Char) : ∃ n, n ≤ 2 ^ 31 ∧ consumed key = key.take n := by
  unfold consumed intSize
  by_cases hm : key.length % 2 ^ 32 < 2 ^ 31
  · refine ⟨key.length % 2 ^ 32, le_of_lt hm, ?_⟩
    rw [if_pos hm, if_pos (Int.natCast_nonneg _), Int.toNat_natCast]
  · refine ⟨2 ^ 31, le_refl _, ?_⟩
    rw [if_neg hm]
    have hlt : key.length % 2 ^ 32 < 2 ^ 32 := Nat.mod_lt _ (by norm_num)
    rw [if_neg]
    omega

theorem length_consumed_le (key : List Char) : (consumed key).length ≤ 2 ^ 31 := by
  obtain ⟨n, hn, h⟩ := consumed_eq_take key
  rw [h, List.length_take]
  exact le_trans (Nat.min_le_left _ _) hn

theorem consumed_of_le {key : List Char} (h : key.length ≤ 2 ^ 31) : consumed key = key := by
  rcases Nat.lt_or_ge key.length (2 ^ 31) with hlt | hge
  · exact consumed_of_short hlt
  · have he : key.length = 2 ^ 31 := le_antisymm h hge
    unfold consumed intSize
    rw [he]
    have h1 : ¬ ((2 : Nat) ^ 31 % 2 ^ 32 < 2 ^ 31) := by norm_num
    rw [if_neg h1, if_neg (by norm_num)]
    rw [← he]
    exact List.take_length key

end Trie

namespace Trie

variable {Ty : Type} {El : Ty → Type}

/-- The nodes of `Put` are no deeper than the key consumed and the nodes there before. -/
theorem walk_Put_le (T : Ty) (v : El T) (p : List Char) (ptr : Option (TrieNode El)) (d : Nat)
    (hp : p.length ≤ d) (h : ∀ key n, walk ptr key = some n → key.length ≤ d) :
    ∀ key n, walk (some (Put.dfs T v p ptr)) key = some n → key.length ≤ d := by
  induction p generalizing ptr d with
  | nil =>
    intro key n hn
    cases key with
    | nil => exact Nat.zero_le _
    | cons c r =>
      have : walk (child (some (Put.dfs T v [] ptr)) c) r = some n := hn
      rw [child_Put_nil] at this
      exact h (c :: r) n this
  | cons c p ih =>
    intro key n hn
    cases key with
    | nil => exact Nat.zero_le _
    | cons c' r =>
      have hw : walk (child (some (Put.dfs T v (c :: p) ptr)) c') r = some n := hn
      rw [Put_dfs_cons] at hw
      by_cases hc : c' = c
      · subst hc
        rw [child_setChild_self] at hw
        have hp' : p.length ≤ d - 1 := by
          simp only [List.length_cons] at hp
          omega
        have hd : 1 ≤ d := by
          simp only [List.length_cons] at hp
          omega
        have := ih (child ptr c') (d - 1) hp'
          (fun key m hm => by
            have := h (c' :: key) m hm
            simp only [List.length_cons] at this
            omega) r n hw
        simp only [List.length_cons]
        omega
      · rw [child_setChild_ne _ _ hc, child_base] at hw
        exact h (c' :: r) n hw

/-- A node reached after `Remove` stands where a node was before. -/
theorem walk_Remove_some (k : List Char) (ptr : Option (TrieNode El)) (key : List Char)
    (n : TrieNode El) (h : walk (Remove.dfs k ptr) key = some n) :
    ∃ m, walk ptr key = some m := by
  induction k generalizing ptr key n with
  | nil =>
    cases ptr with
    | none => rw [Remove_dfs_none, walk_none] at h; cases h
    | some p =>
      simp only [Remove.dfs] at h
      split_ifs at h with hc
      · cases key with
        | nil => exact ⟨p, rfl⟩
        | cons c r => exact ⟨n, h⟩
      · rw [walk_none] at h; cases h
  | cons c k ih =>
    cases ptr with
    | none => rw [Remove_dfs_none, walk_none] at h; cases h
    | some p =>
      rw [Remove_dfs_cons] at h
      cases hq : child (some p) c with
      | none =>
        rw [hq] at h
        simp only [] at h
        rw [walk_none] at h; cases h
      | some q =>
        rw [hq] at h
        simp only [] at h
        cases hr : Remove.dfs k (some q) with
        | none =>
          rw [hr] at h
          simp only [Clone_eq] at h
          split_ifs at h with he
          · rw [walk_none] at h; cases h
          · cases key with
            | nil => exact ⟨p, rfl⟩
            | cons c' r =>
              have hw : walk (child (some (p.eraseChild c)) c') r = some n := h
              by_cases hc : c' = c
              · subst hc
                rw [child_eraseChild_self, walk_none] at hw; cases hw
              · rw [child_eraseChild_ne _ hc] at hw
                exact ⟨n, hw⟩
        | some next =>
          rw [hr] at h
          simp only [Clone_eq] at h
          cases key with
          | nil => exact ⟨p, rfl⟩
          | cons c' r =>
            have hw : walk (child (some (p.setChild c next)) c') r = some n := h
            by_cases hc : c' = c
            · subst hc
              rw [child_setChild_self, ← hr] at hw
              obtain ⟨m, hm⟩ := ih (some q) r n hw
              exact ⟨m, by show walk (child (some p) c') r = some m; rw [hq]; exact hm⟩
            · rw [child_setChild_ne _ _ hc] at hw
              exact ⟨n, hw⟩

theorem Bounded_Put (t : Trie El) (T : Ty) (key : List Char) (v : El T) (h : t.Bounded) :
    (t.Put T key v).Bounded :=
  walk_Put_le T v (consumed key) t.root_ (2 ^ 31) (length_consumed_le key) h

theorem Bounded_Remove (t : Trie El) (key : List Char) (h : t.Bounded) :
    (t.Remove key).Bounded := by
  intro key' n hn
  obtain ⟨m, hm⟩ := walk_Remove_some (consumed key) t.root_ key' n hn
  exact h key' m hm

theorem Bounded_empty : (Trie.empty : Trie El).Bounded := by
  intro key n hn
  have : walk (none : Option (TrieNode El)) key = some n := hn
  rw [walk_none] at this
  cases this

theorem Bounded_build (updates : List (TrieUpdate El)) : (Trie.build updates).Bounded := by
  have key : ∀ (t : Trie El), t.Bounded → (updates.foldl Trie.apply t).Bounded := by
    induction updates with
    | nil => intro t h; exact h
    | cons u us ih =>
      intro t h
      refine ih (t.apply u) ?_
      cases u with
      | Put T k v => exact Bounded_Put t T k v h
      | Remove k => exact Bounded_Remove t k h
  exact key _ Bounded_empty

/-- In a bounded trie `Get` finds nothing at a key of more than `2 ^ 31` units. -/
theorem Get_of_long [DecidableEq Ty] (t : Trie El) (T : Ty) (key : List Char) (h : t.Bounded)
    (hk : ¬ key.length ≤ 2 ^ 31) : t.Get T key = none := by
  unfold Trie.Get
  rw [Get.loop_eq_walk]
  cases hw : walk t.root_ key with
  | none => rfl
  | some n => exact absurd (h key n hw) hk

end Trie

namespace Trie

variable {Ty : Type} {El : Ty → Type}

end Trie

/-! ## The contract of the trie -/

/-- C3 on the code: in the trie that stores 1 at "ab" only, `Remove` of the key "ac", whose
edge `c` is missing below "a", and `Remove` of the key "a", which lands on a plain node, both
return the empty trie, so that the other key "ab" loses its value. -/
theorem Trie.Remove_drops_other_key :
    ((Trie.empty : Trie CppType.El).Put .uint32_t "ab".toList (1 : Fin (2 ^ 32))).Get
        .uint32_t "ab".toList = some 1 ∧
      (((Trie.empty : Trie CppType.El).Put .uint32_t "ab".toList (1 : Fin (2 ^ 32))).Remove
        "ac".toList).Get .uint32_t "ab".toList = none ∧
      (((Trie.empty : Trie CppType.El).Put .uint32_t "ab".toList (1 : Fin (2 ^ 32))).Remove
        "a".toList).Get .uint32_t "ab".toList = none := by
  decide

/-- C4, after `Remove` the key has no value: for every trie `t` (bounded as every trie that
the code builds is), every key `k` and every requested type `T`, `Get<T>` on `Remove(t, k)`
with `k` is absent. -/
theorem Trie.Get_Remove_self {Ty : Type} [DecidableEq Ty] {El : Ty → Type} (t : Trie El)
    (T : Ty) (k : List Char) (hb : t.Bounded) :
    (t.Remove k).Get T k = none := by
  by_cases hk : k.length ≤ 2 ^ 31
  · unfold Trie.Remove Trie.Get
    rw [Trie.consumed_of_le hk]
    exact Trie.Get.loop_Remove_self T k t.root_
  · exact Trie.Get_of_long _ T k (Trie.Bounded_Remove t k hb) hk

/-- Witness of C4: after `Remove("a")` on the trie that stores 1 at "a" and 2 at "ab", the key
"a" has no value. -/
theorem Trie.Get_Remove_self_witness :
    ((((Trie.empty : Trie CppType.El).Put .uint32_t "a".toList (1 : Fin (2 ^ 32))).Put
      .uint32_t "ab".toList (2 : Fin (2 ^ 32))).Remove "a".toList).Get .uint32_t "a".toList
      = none :=
  Trie.Get_Remove_self _ _ _
    (Trie.Bounded_Put _ _ _ _ (Trie.Bounded_Put _ _ _ _ Trie.Bounded_empty))

/-- C6, the type-safe lookup fails closed: for every trie `t` (bounded as every trie that the
code builds is), key `k` and value `v` stored with type `T`, requesting another type `U ≠ T`
at `k` on `Put<T>(t, k, v)` gives absent; and in any trie, at a key where `Get<T>` returns a
value, `Get<U>` is absent. -/
theorem Trie.Get_Put_type_mismatch {Ty : Type} [DecidableEq Ty] {El : Ty → Type} (t : Trie El)
    (T U : Ty) (k : List Char) (v : El T) (h : U ≠ T) (hb : t.Bounded) :
    (t.Put T k v).Get U k = none ∧
      ∀ (s : Trie El) (k' : List Char) (w : El T), s.Get T k' = some w → s.Get U k' = none := by
  refine ⟨?_, fun s k' w hw => Trie.Get.loop_one_type h k' s.root_ w hw⟩
  by_cases hk : k.length ≤ 2 ^ 31
  · unfold Trie.Put Trie.Get
    rw [Trie.consumed_of_le hk]
    exact Trie.Get.loop_Put_mismatch h v k t.root_
  · exact Trie.Get_of_long _ U k (Trie.Bounded_Put t T k v hb) hk

/-- Witness of C6: after `Put<uint32_t>(t, "x", 5)` on the empty trie, `Get<std::string>` with
"x" is absent. -/
theorem Trie.Get_Put_type_mismatch_witness :
    CppType.string ≠ CppType.uint32_t ∧
      ((Trie.empty : Trie CppType.El).Put .uint32_t "x".toList (5 : Fin (2 ^ 32))).Get
        .string "x".toList = none :=
  ⟨by decide, (Trie.Get_Put_type_mismatch _ _ _ _ _ (by decide) Trie.Bounded_empty).1⟩

/-- C7, the scenario: from the empty trie, after `Put("a", 1)`, `Put("b", 2)`, `Put("ab", 3)`
and `Remove("a")`, the final version gives absent for "a" (under every requested type), 2 for
"b" and 3 for "ab". -/
theorem Trie.scenario :
    (∀ U, (((((Trie.empty : Trie CppType.El).Put .uint32_t "a".toList (1 : Fin (2 ^ 32))).Put
        .uint32_t "b".toList (2 : Fin (2 ^ 32))).Put .uint32_t "ab".toList
        (3 : Fin (2 ^ 32))).Remove "a".toList).Get U "a".toList = none) ∧
      (((((Trie.empty : Trie CppType.El).Put .uint32_t "a".toList (1 : Fin (2 ^ 32))).Put
        .uint32_t "b".toList (2 : Fin (2 ^ 32))).Put .uint32_t "ab".toList
        (3 : Fin (2 ^ 32))).Remove "a".toList).Get .uint32_t "b".toList = some 2 ∧
      (((((Trie.empty : Trie CppType.El).Put .uint32_t "a".toList (1 : Fin (2 ^ 32))).Put
        .uint32_t "b".toList (2 : Fin (2 ^ 32))).Put .uint32_t "ab".toList
        (3 : Fin (2 ^ 32))).Remove "a".toList).Get .uint32_t "ab".toList = some 3 := by
  refine ⟨fun U => ?_, by decide, by decide⟩
  cases U <;> decide

/-! ## The behaviour of `Remove` on the structure of the trie -/

/-- C16 on the code: in the trie that stores 1 at "ab" only, the path of "ac" is missing (the
node of "a" exists and has no child for `c`), yet `Remove` of "ac" does not return the trie
unchanged: the root becomes absent and "ab" loses its value. -/
theorem Trie.Remove_missing_path_changes :
    (Trie.walk ((Trie.empty : Trie CppType.El).Put .uint32_t "ab".toList
        (1 : Fin (2 ^ 32))).root_ "a".toList).isSome = true ∧
      (Trie.walk ((Trie.empty : Trie CppType.El).Put .uint32_t "ab".toList
        (1 : Fin (2 ^ 32))).root_ "ac".toList).isNone = true ∧
      ((Trie.empty : Trie CppType.El).Put .uint32_t "ab".toList
        (1 : Fin (2 ^ 32))).root_.isSome = true ∧
      (((Trie.empty : Trie CppType.El).Put .uint32_t "ab".toList
        (1 : Fin (2 ^ 32))).Remove "ac".toList).root_.isNone = true ∧
      ((Trie.empty : Trie CppType.El).Put .uint32_t "ab".toList
        (1 : Fin (2 ^ 32))).Get .uint32_t "ab".toList = some 1 ∧
      (((Trie.empty : Trie CppType.El).Put .uint32_t "ab".toList
        (1 : Fin (2 ^ 32))).Remove "ac".toList).Get .uint32_t "ab".toList = none := by
  decide

/-- C17 on the code: in the trie that stores 1 at "ab" only, the key "a" lands on a plain node,
yet `Remove` of "a" does not return the trie unchanged: the root becomes absent and the key
"ab" below "a" loses its value. -/
theorem Trie.Remove_plain_node_changes :
    (Trie.walk ((Trie.empty : Trie CppType.El).Put .uint32_t "ab".toList
        (1 : Fin (2 ^ 32))).root_ "a".toList).map TrieNode.is_value_node_ = some false ∧
      ((Trie.empty : Trie CppType.El).Put .uint32_t "ab".toList
        (1 : Fin (2 ^ 32))).root_.isSome = true ∧
      (((Trie.empty : Trie CppType.El).Put .uint32_t "ab".toList
        (1 : Fin (2 ^ 32))).Remove "a".toList).root_.isNone = true ∧
      ((Trie.empty : Trie CppType.El).Put .uint32_t "ab".toList
        (1 : Fin (2 ^ 32))).Get .uint32_t "ab".toList = some 1 ∧
      (((Trie.empty : Trie CppType.El).Put .uint32_t "ab".toList
        (1 : Fin (2 ^ 32))).Remove "a".toList).Get .uint32_t "ab".toList = none := by
  decide

/-- C18, no dead nodes: the empty trie is well-formed; for every well-formed trie `t`, every
key `k` and value `v`, both `Put(t, k, v)` and `Remove(t, k)` are well-formed; and every trie
built from the empty trie by a sequence of `Put` and `Remove` is well-formed. -/
theorem Trie.no_dead_nodes {Ty : Type} {El : Ty → Type} :
    (Trie.empty : Trie El).WellFormed ∧
      (∀ t : Trie El, t.WellFormed → ∀ (T : Ty) (k : List Char) (v : El T),
        (t.Put T k v).WellFormed ∧ (t.Remove k).WellFormed) ∧
      ∀ updates : List (TrieUpdate El), (Trie.build updates).WellFormed :=
  ⟨Trie.WellFormed_empty,
    fun t h T k v => ⟨Trie.WellFormed_Put t T k v h, Trie.WellFormed_Remove t k h⟩,
    Trie.WellFormed_build⟩

/-- Witness of C18: the trie that stores 1 at "ab" is well-formed, and so are the tries after
`Put("a", 2)` and after `Remove("a")`. -/
theorem Trie.no_dead_nodes_witness :
    (((Trie.empty : Trie CppType.El).Put .uint32_t "ab".toList (1 : Fin (2 ^ 32))).Put
        .uint32_t "a".toList (2 : Fin (2 ^ 32))).WellFormed ∧
      (((Trie.empty : Trie CppType.El).Put .uint32_t "ab".toList (1 : Fin (2 ^ 32))).Remove
        "a".toList).WellFormed :=
  (@Trie.no_dead_nodes CppType CppType.El).2.1
    ((Trie.empty : Trie CppType.El).Put .uint32_t "ab".toList (1 : Fin (2 ^ 32)))
    (Trie.WellFormed_Put _ _ _ _ Trie.WellFormed_empty)
    CppType.uint32_t "a".toList (2 : Fin (2 ^ 32))

/-- C20, `Remove` never introduces or alters a value: for every trie `t`, keys `k` and `k'` and
requested type `T`, a value that `Get<T>` returns for `k'` on `Remove(t, k)` is the value it
returns for `k'` on `t`. -/
theorem Trie.Get_Remove_sub {Ty : Type} [DecidableEq Ty] {El : Ty → Type} (t : Trie El)
    (T : Ty) (k k' : List Char) (v : El T) (h : (t.Remove k).Get T k' = some v) :
    t.Get T k' = some v :=
  Trie.Get.loop_Remove_sub T (Trie.consumed k) k' t.root_ v h

/-- Witness of C20: the value 2 found at "b" after `Remove("a")` is the value stored at "b"
before. -/
theorem Trie.Get_Remove_sub_witness :
    (((Trie.empty : Trie CppType.El).Put .uint32_t "a".toList (1 : Fin (2 ^ 32))).Put
      .uint32_t "b".toList (2 : Fin (2 ^ 32))).Get .uint32_t "b".toList = some 2 :=
  Trie.Get_Remove_sub _ CppType.uint32_t "a".toList "b".toList (2 : Fin (2 ^ 32)) (by decide)

end bustub
